import Mathlib

/-!
Shallow embedding of `mkwutil/lib/slices.py`: the `Slice` region type, the
`SliceTable` ordered-partition structure with its `add` / `remove` / `slice` /
`find_parent` operations, the `object_slices` reconciler, and the row-level
core of the slices CSV reader/writer.  Addresses are natural numbers (the
Python code works with non-negative `int` addresses).  Failures that Python
surfaces as exceptions (assertion errors, `IndexError`, `TypeError`,
`AttributeError`, `ValueError`) are modelled by `Option`: `none` means the
call raises.
-/

set_option maxRecDepth 4000
set_option linter.unusedVariables false

namespace MKW

/-- A continuous memory region (`Slice` in `slices.py`).  `tags` is a Python
`set[str]`; it is modelled as a list queried only through membership. -/
structure Slice where
  start : Nat
  stop : Nat
  name : Option String := none
  «section» : Option String := none
  tags : List String := []
deriving Repr, DecidableEq

/-- `Slice.__contains__` for an `int` key: `start <= key < stop`. -/
def Slice.containsAddr (s : Slice) (key : Nat) : Bool :=
  decide (s.start ≤ key ∧ key < s.stop)

/-- `Slice.__contains__` for a `Slice` key:
`self.start <= key.start and self.stop >= key.stop`. -/
def Slice.containsSlice (s other : Slice) : Bool :=
  decide (s.start ≤ other.start ∧ other.stop ≤ s.stop)

/-- `Slice.has_name`: whether the slice is named. -/
def Slice.has_name (s : Slice) : Bool :=
  s.name.isSome

/-- `Slice.__len__`: asserts `start <= stop`, then returns `stop - start`. -/
def Slice.len (s : Slice) : Option Nat :=
  if s.start ≤ s.stop then some (s.stop - s.start) else none

/-- A list of contiguous slices for a given range (`SliceTable`).  The three
fields are exactly the attributes `__init__` assigns: `slices`, `start`,
`stop`. -/
structure SliceTable where
  slices : List Slice
  start : Nat
  stop : Nat
deriving Repr, DecidableEq

/-- `SliceTable.__init__(start, stop)` (no `sections` argument): asserts
`start < stop` and seeds the table with a single gap spanning the range. -/
def SliceTable.init (start stop : Nat) : Option SliceTable :=
  if start < stop then some ⟨[⟨start, stop, none, none, []⟩], start, stop⟩ else none

/-- `SliceTable.__contains__`: the range of the slice lies within the table. -/
def SliceTable.containsSlice (t : SliceTable) (s : Slice) : Bool :=
  decide (t.start ≤ s.start ∧ s.stop ≤ t.stop)

/-- `SliceTable.size`. -/
def SliceTable.size (t : SliceTable) : Nat :=
  t.stop - t.start

/-- `SliceTable.count`. -/
def SliceTable.count (t : SliceTable) : Nat :=
  t.slices.length

/-- Helper for `SliceTable.find`: linear scan with a running index. -/
def findAux : List Slice → Nat → Nat → Option (Slice × Nat)
  | [], _, _ => none
  | s :: rest, addr, i =>
    if s.start ≤ addr ∧ addr < s.stop then some (s, i) else findAux rest addr (i + 1)

/-- `SliceTable.find`: returns the slice the address falls into and its index,
or `none` (Python returns `(None, None)`). -/
def SliceTable.find (t : SliceTable) (addr : Nat) : Option (Slice × Nat) :=
  findAux t.slices addr 0

/-- `bisect.bisect(slices, probe)` as used by `add`.  `Slice` only defines
`__gt__`, comparing `start` addresses, so `bisect` works on the list sorted by
`start` (the table invariant) and returns the number of leading elements whose
`start` is `≤` the probe's `start`. -/
def bisect (l : List Slice) (x : Slice) : Nat :=
  (l.takeWhile (fun s => decide (s.start ≤ x.start))).length

/-- `bisect.bisect_left(slices, probe)` as used by `find_parent`: the number of
leading elements whose `start` is `<` the probe's `start` (first index whose
element does not compare below the probe). -/
def bisect_left (l : List Slice) (x : Slice) : Nat :=
  (l.takeWhile (fun s => decide (s.start < x.start))).length

/-- Python `l[i]` with `int` index: negative indices count from the end;
out-of-range access raises (`none`). -/
def pyGet (l : List α) (i : Int) : Option α :=
  if 0 ≤ i then l.get? i.toNat
  else if (-i).toNat ≤ l.length then l.get? (l.length - (-i).toNat)
  else none

/-- Python `l[i] = x` with `int` index. -/
def pySet (l : List α) (i : Int) (x : α) : Option (List α) :=
  if 0 ≤ i then
    if i.toNat < l.length then some (l.set i.toNat x) else none
  else if (-i).toNat ≤ l.length then some (l.set (l.length - (-i).toNat) x)
  else none

/-- Insertion at a natural index, clamping past-the-end indices like Python's
`list.insert`. -/
def insertAt : List α → Nat → α → List α
  | l, 0, x => x :: l
  | [], _ + 1, x => [x]
  | a :: l, i + 1, x => a :: insertAt l i x

/-- Python `l.insert(i, x)` with `int` index: negative indices clamp to
`max 0 (len + i)`, large indices clamp to the end. -/
def pyInsert (l : List α) (i : Int) (x : α) : List α :=
  if 0 ≤ i then insertAt l i.toNat x
  else insertAt l (l.length - min (-i).toNat l.length) x

/-- `SliceTable.add`: adds a slice, splitting the gap it lands in.  Asserts a
positive length, that the slice fits in the table, and that the bisected
target is an unnamed slice fully enclosing the new slice; then replaces the
target in place with left gap (if any), the new slice, and right gap (if
any). -/
def SliceTable.add (t : SliceTable) (s : Slice) : Option SliceTable :=
  if ¬ s.start < s.stop then none
  else if ¬ (t.start ≤ s.start ∧ s.stop ≤ t.stop) then none
  else
    let i : Int := (bisect t.slices s : Int) - 1
    match pyGet t.slices i with
    | none => none
    | some target =>
      if ¬ (target.name = none ∧ target.start ≤ s.start ∧ s.stop ≤ target.stop) then none
      else
        let p := if target.start < s.start then
            (pyInsert t.slices i ⟨target.start, s.start, none, none, []⟩, i + 1)
          else (t.slices, i)
        match pySet p.1 p.2 s with
        | none => none
        | some slices2 =>
          let slices3 := if s.stop < target.stop then
              pyInsert slices2 (p.2 + 1) ⟨s.stop, target.stop, none, none, []⟩
            else slices2
          some { t with slices := slices3 }

/-- `SliceTable.__merge_left`: merges the gap slice at `idx` with a possible
unnamed left neighbor; asserts the slice at `idx` is unnamed.  Returns the
new list and the index of the gap slice. -/
def mergeLeft (slices : List Slice) (idx : Nat) : Option (List Slice × Nat) :=
  match slices.get? idx with
  | none => none
  | some s =>
    if s.name.isSome then none
    else if 0 < idx then
      match slices.get? (idx - 1) with
      | none => none
      | some left =>
        if left.name.isSome then some (slices, idx)
        else some ((slices.set (idx - 1) { left with stop := s.stop }).eraseIdx idx, idx - 1)
    else some (slices, idx)

/-- `SliceTable.__merge_right`: merges the gap slice at `idx` with a possible
unnamed right neighbor; asserts the slice at `idx` is unnamed. -/
def mergeRight (slices : List Slice) (idx : Nat) : Option (List Slice × Nat) :=
  match slices.get? idx with
  | none => none
  | some s =>
    if s.name.isSome then none
    else
      match slices.get? (idx + 1) with
      | none => some (slices, idx)
      | some right =>
        if right.name.isSome then some (slices, idx)
        else some ((slices.set (idx + 1) { right with start := s.start }).eraseIdx idx, idx)

/-- `SliceTable.__remove_slice`: creates a gap covering
`[new_start, new_stop)` inside the slice at `idx`, splitting off named
remainder parts and merging the new gap with adjacent gaps.  Returns the new
list and the index of the gap slice. -/
def removeSlice (slices : List Slice) (idx new_start new_stop : Nat) :
    Option (List Slice × Nat) :=
  match slices.get? idx with
  | none => none
  | some target =>
    if ¬ new_start < new_stop then none
    else if ¬ target.start ≤ new_start then none
    else if ¬ new_stop ≤ target.stop then none
    else if target.start = new_start ∧ target.stop = new_stop then
      match mergeLeft (slices.set idx { target with name := none }) idx with
      | none => none
      | some (l, i) => mergeRight l i
    else if target.start = new_start then
      let gap : Slice := { target with name := none, stop := new_stop }
      let part : Slice := { target with start := new_stop }
      mergeLeft (insertAt (slices.set idx gap) (idx + 1) part) idx
    else if target.stop = new_stop then
      let part : Slice := { target with stop := new_start }
      let gap : Slice := { target with name := none, start := new_start }
      mergeRight (insertAt (slices.set idx part) (idx + 1) gap) (idx + 1)
    else
      let part_l : Slice := { target with stop := new_start }
      let gap : Slice := { target with name := none, start := new_start, stop := new_stop }
      let part_r : Slice := { target with start := new_stop }
      some (insertAt (insertAt (slices.set idx part_l) (idx + 1) gap) (idx + 2) part_r, idx + 1)

/-- The `while` loop of `SliceTable.__remove`: while the slice at `idx`
starts before `stop`, carve the overlap out of it and advance.  `fuel` bounds
the iteration count; every run of the Python loop on a table below its fuel
bound is reproduced exactly, and exhausted fuel yields `none`. -/
def removeLoop (slices : List Slice) (idx start stop fuel : Nat) : Option (List Slice) :=
  match fuel with
  | 0 => none
  | fuel + 1 =>
    match slices.get? idx with
    | none => some slices
    | some target =>
      if stop ≤ target.start then some slices
      else
        let next_stop := min stop target.stop
        match removeSlice slices idx (max start target.start) next_stop with
        | none => none
        | some (slices', idx') => removeLoop slices' (idx' + 1) start stop fuel

/-- `SliceTable.remove(start, stop)` dispatching to `SliceTable.__remove`:
clamps the range to the table bounds, locates the slice containing the
clamped `start` (a failed lookup makes the Python loop raise), and carves
slice by slice. -/
def SliceTable.remove (t : SliceTable) (start stop : Nat) : Option SliceTable :=
  let start := max start t.start
  let stop := min stop t.stop
  match t.find start with
  | none => none
  | some (_, idx) =>
    match removeLoop t.slices idx start stop (t.slices.length + stop + 1) with
    | none => none
    | some l => some { t with slices := l }

/-- `SliceTable.find_parent`: returns `slices[bisect_left(slices, probe)]`
when the index is in range, else `none`. -/
def SliceTable.find_parent (t : SliceTable) (s : Slice) : Option Slice :=
  t.slices.get? (bisect_left t.slices s)

/-- Python attribute lookup of `self.segs` on a `SliceTable`: no code path
ever assigns a `segs` attribute (only `slices`, `start` and `stop` exist), so
the lookup raises `AttributeError` on every table. -/
def SliceTable.segs? (_ : SliceTable) : Option (List Slice) :=
  none

/-- `SliceTable.sum_named_slices`: iterates `self.segs` summing the lengths of
named slices.  The attribute access fails before any iteration. -/
def SliceTable.sum_named_slices (t : SliceTable) : Option Nat :=
  match t.segs? with
  | none => none
  | some segs =>
    some ((segs.filter (fun s => s.name.isSome)).foldl (fun acc s => acc + (s.stop - s.start)) 0)

/-- The `for` loop of `SliceTable.slice`: walks `self.slices[start_idx:]`,
truncating the boundary slices and `add`ing each piece into the new table. -/
def sliceLoop (rest : List Slice) (start stop : Nat) (acc : SliceTable) : Option SliceTable :=
  match rest with
  | [] => some acc
  | s :: rest =>
    let s := if s.start < start then { s with start := start } else s
    if stop ≤ s.start then some acc
    else if stop < s.stop then acc.add { s with stop := stop }
    else
      match acc.add s with
      | none => none
      | some acc => sliceLoop rest start stop acc

/-- `SliceTable.slice(start, stop)`: asserts `start` falls inside an existing
slice, builds a fresh table over `[start, stop)` and copies the truncated
window into it. -/
def SliceTable.slice (t : SliceTable) (start stop : Nat) : Option SliceTable :=
  match t.find start with
  | none => none
  | some (_, start_idx) =>
    match SliceTable.init start stop with
    | none => none
    | some new_table => sliceLoop (t.slices.drop start_idx) start stop new_table

/-- `SliceTable.SECTION_ORDER`. -/
def SECTION_ORDER : List String :=
  ["init", "extab", "extabindex", "text", "ctors", "dtors", "rodata", "data",
   "bss", "sdata", "sbss", "sdata2", "sbss2"]

/-- `list.index(x)`: index of the first occurrence, `none` for `ValueError`. -/
def idxOfStr : List String → String → Option Nat
  | [], _ => none
  | a :: rest, x => if a = x then some 0 else (idxOfStr rest x).map (· + 1)

/-- Lookup in an insertion-ordered association list (Python `dict.get`). -/
def assocGet? : List (String × α) → String → Option α
  | [], _ => none
  | (k', v) :: rest, k => if k' = k then some v else assocGet? rest k

/-- Python `dict[k] = v`: overwrite in place, else append (insertion order is
preserved, as for `dict`). -/
def assocSet : List (String × α) → String → α → List (String × α)
  | [], k, v => [(k, v)]
  | (k', v') :: rest, k, v => if k' = k then (k, v) :: rest else (k', v') :: assocSet rest k v

/-- The bucket/`object_sections` building loop of `object_slices`: every named
slice is appended to the bucket of its section's position in `order`, and its
section is recorded in the per-name section set (modelled as a duplicate-free
insertion-ordered list).  A slice whose section is absent from `order` (or is
`None`) raises `ValueError` in `order.index`. -/
def objBuild (slices : List Slice) (order : List String) (buckets : List (List Slice))
    (osec : List (String × List String)) :
    Option (List (List Slice) × List (String × List String)) :=
  match slices with
  | [] => some (buckets, osec)
  | s :: rest =>
    if s.name.isNone then objBuild rest order buckets osec
    else
      match s.«section» with
      | none => none
      | some sec =>
        match idxOfStr order sec with
        | none => none
        | some j =>
          let buckets := buckets.set j (buckets.getD j [] ++ [s])
          let name := s.name.getD ""
          let sections := (assocGet? osec name).getD []
          let sections := if sec ∈ sections then sections else sections ++ [sec]
          objBuild rest order buckets (assocSet osec name sections)

/-- Stable insertion of a slice into a list sorted by `start` (the new slice
goes before the first element with a `start` not below its own, keeping the
original order of equal keys). -/
def sInsert (s : Slice) : List Slice → List Slice
  | [] => [s]
  | x :: xs => if s.start ≤ x.start then s :: x :: xs else x :: sInsert s xs

/-- Python's stable `bucket.sort(key=lambda s: s.start)`. -/
def pySortByStart : List Slice → List Slice
  | [] => []
  | x :: xs => sInsert x (pySortByStart xs)

/-- Total number of slices across all buckets. -/
def bucketsCount (buckets : List (List Slice)) : Nat :=
  (buckets.map List.length).foldl (· + ·) 0

/-- The dependency scan of `object_slices` (the inner `for j, dep_bucket in
enumerate(buckets)`), structurally recursing over the bucket list with its
running index `j`: for every bucket index `j ≠ i` whose section is among the
candidate object's sections, the front of bucket `j` must carry the
candidate's name.  Reading the front of an empty bucket raises `IndexError`
(outer `none`); a name mismatch yields `some (false, _)`; otherwise the
fronts are collected in bucket order after the candidate. -/
def depsScan (order : List String) (osecs : List String) (name : String) (i : Nat) :
    Nat → List (List Slice) → List Slice → Option (Bool × List Slice)
  | _, [], acc => some (true, acc)
  | j, bucket :: rest, acc =>
    if j = i then depsScan order osecs name i (j + 1) rest acc
    else
      match order.get? j with
      | none => none
      | some sec =>
        if sec ∈ osecs then
          match bucket.head? with
          | none => none
          | some front =>
            if front.name = some name then
              depsScan order osecs name i (j + 1) rest (acc ++ [front])
            else some (false, acc)
        else depsScan order osecs name i (j + 1) rest acc

/-- The bucket-selection scan of `object_slices` (the outer `for i, bucket in
enumerate(buckets)`), structurally recursing over the bucket list with its
running index: tries each bucket's front in order until one's dependencies
all match; `none` when every bucket fails (the `assert resolved_row` fires)
or the scan raises. -/
def findResolvable (order : List String) (buckets : List (List Slice))
    (osec : List (String × List String)) : Nat → List (List Slice) →
    Option (String × List Slice)
  | _, [] => none
  | i, bucket :: rest =>
    match bucket.head? with
    | none => findResolvable order buckets osec (i + 1) rest
    | some front =>
      match front.name with
      | none => none
      | some name =>
        match assocGet? osec name with
        | none => none
        | some osecs =>
          match depsScan order osecs name i 0 buckets [front] with
          | none => none
          | some (true, slices) => some (name, slices)
          | some (false, _) => findResolvable order buckets osec (i + 1) rest

/-- The inner `while` of the pop phase, recursing over the buckets from
index `j` on: advance `j` until bucket `j` is nonempty with a front in the
wanted section; running past the last bucket raises `IndexError`. -/
def findPopIdxAux (s : Slice) : Nat → List (List Slice) → Option Nat
  | _, [] => none
  | j, bucket :: rest =>
    match bucket.head? with
    | none => findPopIdxAux s (j + 1) rest
    | some front =>
      if front.«section» = s.«section» then some j else findPopIdxAux s (j + 1) rest

/-- The `while` loop of the pop phase starting at index `j`. -/
def findPopIdx (buckets : List (List Slice)) (j : Nat) (s : Slice) : Option Nat :=
  findPopIdxAux s j (buckets.drop j)

/-- The pop phase of `object_slices`: for each resolved slice, in order, pop
the front of the next bucket holding its section. -/
def popLoop (buckets : List (List Slice)) (j : Nat) : List Slice → Option (List (List Slice))
  | [] => some buckets
  | s :: rest =>
    match findPopIdx buckets j s with
    | none => none
    | some j' => popLoop (buckets.set j' (buckets.getD j' []).tail) j' rest

/-- The outer `while` of `object_slices`: repeatedly resolve one object and
pop its slices, recording groupings keyed by name (later groupings overwrite
earlier ones with the same name, as for a Python `dict`). -/
def objLoop (order : List String) (buckets : List (List Slice))
    (osec : List (String × List String)) (objects : List (String × List Slice))
    (fuel : Nat) : Option (List (String × List Slice)) :=
  match fuel with
  | 0 => none
  | fuel + 1 =>
    if bucketsCount buckets = 0 then some objects
    else
      match findResolvable order buckets osec 0 buckets with
      | none => none
      | some (name, slices) =>
        match popLoop buckets 0 slices with
        | none => none
        | some buckets => objLoop order buckets osec (assocSet objects name slices) fuel

/-- `SliceTable.object_slices`: groups same-named slices across sections.
The result is the `ObjectSlices` dict as an insertion-ordered association
list; `none` models the reconciliation failures (unsatisfiable ordering, a
section missing from `order`, ...). -/
def SliceTable.object_slices (t : SliceTable) (order : List String) :
    Option (List (String × List Slice)) :=
  match objBuild t.slices order (List.replicate order.length []) [] with
  | none => none
  | some (buckets, osec) =>
    let buckets := buckets.map pySortByStart
    objLoop order buckets osec [] (bucketsCount buckets + 1)

/-! ### The tabular (CSV) codec, at row granularity

The `csv` module's quoting layer is a faithful inverse on the row level, so
rows are modelled as `List String`. -/

/-- Hexadecimal digit characters as produced by Python's `hex` (lowercase). -/
def hexDigitChar (d : Nat) : Char :=
  if d < 10 then Char.ofNat (48 + d) else Char.ofNat (87 + d)

/-- Big-endian hex digit list of `n` (empty for `0`), with a structural fuel
argument bounding the recursion depth (any fuel `≥ n` computes the digits). -/
def toHexDigitsFuel : Nat → Nat → List Char
  | 0, _ => []
  | fuel + 1, n =>
    if n = 0 then [] else toHexDigitsFuel fuel (n / 16) ++ [hexDigitChar (n % 16)]

/-- Big-endian hex digit list of `n` (empty for `0`). -/
def toHexDigits (n : Nat) : List Char :=
  toHexDigitsFuel n n

/-- Python `hex(n)` for a non-negative `n`: `0x` followed by lowercase hex
digits. -/
def pyHex (n : Nat) : String :=
  String.mk ('0' :: 'x' :: (if n = 0 then ['0'] else toHexDigits n))

/-- Value of a hexadecimal digit character (either case), `none` otherwise. -/
def hexVal (c : Char) : Option Nat :=
  if '0' ≤ c ∧ c ≤ '9' then some (c.toNat - 48)
  else if 'a' ≤ c ∧ c ≤ 'f' then some (c.toNat - 87)
  else if 'A' ≤ c ∧ c ≤ 'F' then some (c.toNat - 55)
  else none

/-- Accumulating hex parse of a digit list. -/
def parseHexList : List Char → Nat → Option Nat
  | [], acc => some acc
  | c :: cs, acc =>
    match hexVal c with
    | none => none
    | some d => parseHexList cs (acc * 16 + d)

/-- Python `int(s, 16)` on the non-negative hex literals this codec deals
with: an optional `0x`/`0X` marker followed by at least one hex digit. -/
def pyIntHex (s : String) : Option Nat :=
  let cs := s.data
  let cs := if cs.take 2 = ['0', 'x'] ∨ cs.take 2 = ['0', 'X'] then cs.drop 2 else cs
  match cs with
  | [] => none
  | _ => parseHexList cs 0

/-- Python `str.isspace` characters relevant to `str.strip`. -/
def isSpaceChar (c : Char) : Bool :=
  c == ' ' || c == '\t' || c == '\n' || c == '\r' || c == '\x0b' || c == '\x0c'

/-- Python `str.strip()`. -/
def pyStrip (s : String) : String :=
  String.mk (((s.data.dropWhile isSpaceChar).reverse.dropWhile isSpaceChar).reverse)

/-- Whether `suf` is a suffix of `s` (Python `str.endswith`). -/
def sEndsWith (s suf : String) : Bool :=
  suf.data.isSuffixOf s.data

/-- Python `str.removesuffix`. -/
def sRemoveSuffix (s suf : String) : String :=
  if sEndsWith s suf then String.mk (s.data.take (s.data.length - suf.data.length)) else s

/-- The column list built by `SlicesCSVWriter.__init__`: the two tag columns,
`name`, then a `Start`/`End` pair per section. -/
def writerCols (sections : List String) : List String :=
  ["enabled", "strip", "name"] ++ sections.flatMap (fun sec => [sec ++ "Start", sec ++ "End"])

/-- The section-column key for a slice, as Python's f-string renders it
(`None` prints as `"None"`). -/
def secStr (s : Slice) : String :=
  match s.«section» with
  | some sec => sec
  | none => "None"

/-- The `entry` dict built by `SlicesCSVWriter.write`: `name`, then a `"1"`
flag per tag of the first slice, then the hex range per slice keyed by its
section. -/
def entryOfGroup (name : String) (slices : List Slice) : List (String × String) :=
  let e := [("name", name)]
  let e := (slices.headD ⟨0, 0, none, none, []⟩).tags.foldl (fun e tag => assocSet e tag "1") e
  slices.foldl
    (fun e s => assocSet (assocSet e (secStr s ++ "Start") (pyHex s.start))
      (secStr s ++ "End") (pyHex s.stop)) e

/-- `SlicesCSVWriter.write` followed by `csv.DictWriter.writerow`: rejects
entry keys outside the header (`ValueError`), fills missing columns with the
empty string, and emits the row in column order.  An empty group writes no
row (also `none` here). -/
def writeRow (sections : List String) (name : String) (slices : List Slice) :
    Option (List String) :=
  match slices with
  | [] => none
  | _ =>
    let entry := entryOfGroup name slices
    let cols := writerCols sections
    if entry.all (fun kv => kv.1 ∈ cols) then
      some (cols.map (fun c => (assocGet? entry c).getD ""))
    else none

/-- The reader state built by `SlicesCSVReader.__init__`. -/
structure ReaderCfg where
  tags : List String
  sections : List String
  cols : Nat
deriving Repr, DecidableEq

/-- The section-pair walk of `SlicesCSVReader.__init__`: each consecutive
pair must be `<sec>Start` / `<sec>End` for one section `sec`. -/
def parseSectionPairs : List String → Option (List String)
  | [] => some []
  | [_] => none
  | a :: b :: rest =>
    if sEndsWith a "Start" ∧ sEndsWith b "End" then
      let sec := sRemoveSuffix a "Start"
      if sec = sRemoveSuffix b "End" then (parseSectionPairs rest).map (sec :: ·)
      else none
    else none

/-- `SlicesCSVReader.__init__` on a header row: locate `name`, take the tag
columns before it, and parse the section pairs after it (which must be
non-empty and of even count). -/
def readerInit (header : List String) : Option ReaderCfg :=
  match idxOfStr header "name" with
  | none => none
  | some name_idx =>
    let tag_idx := header.take name_idx
    let section_fields := header.drop (name_idx + 1)
    if section_fields.length = 0 ∨ section_fields.length % 2 ≠ 0 then none
    else
      match parseSectionPairs section_fields with
      | none => none
      | some sections => some ⟨tag_idx, sections, header.length⟩

/-- The per-section range walk of `SlicesCSVReader.parse_row`: for section
`i`, fields `ranges[2i]` and `ranges[2i+1]` hold the hex start/stop; an empty
start skips the section, a start with an empty stop fails the assert, and the
parsed slices carry the row's name and flags. -/
def parseRanges (sections : List String) (i : Nat) (name : String) (flags : List String)
    (ranges : List String) : Option (List Slice) :=
  match sections with
  | [] => some []
  | sec :: rest =>
    match ranges.get? (2 * i), ranges.get? (2 * i + 1) with
    | some start_str, some stop_str =>
      let start_str := pyStrip start_str
      let stop_str := pyStrip stop_str
      if start_str = "" then parseRanges rest (i + 1) name flags ranges
      else if stop_str = "" then none
      else
        match pyIntHex (pyStrip start_str), pyIntHex stop_str with
        | some start, some stop =>
          (parseRanges rest (i + 1) name flags ranges).map
            (⟨start, stop, some name, some sec, flags⟩ :: ·)
        | _, _ => none
    | _, _ => none

/-- `SlicesCSVReader.parse_row`: an empty row yields nothing; otherwise the
field count must match the header, the flag columns holding `"1"` become the
tag set, the `name` column is read, and each populated section pair yields a
slice. -/
def parse_row (cfg : ReaderCfg) (row : List String) : Option (List Slice) :=
  match row with
  | [] => some []
  | _ =>
    if row.length ≠ cfg.cols then none
    else
      let flags := ((cfg.tags.zip row).filter (fun p => decide (p.2 = "1"))).map (·.1)
      match row.get? cfg.tags.length with
      | none => none
      | some name =>
        parseRanges cfg.sections 0 name flags (row.drop (cfg.tags.length + 1))

/-! ### Invariant predicates -/

/-- The partition chain: the slices tile `[a, b)` exactly, in order, each
with positive length.  (Spec invariants 1, 2 and 4: coverage, sortedness /
contiguity, and non-emptiness.) -/
def Chain : Nat → List Slice → Nat → Prop
  | a, [], b => a = b
  | a, s :: l, b => s.start = a ∧ a < s.stop ∧ Chain s.stop l b

instance instDecidableChain : (a : Nat) → (l : List Slice) → (b : Nat) → Decidable (Chain a l b)
  | _, [], _ => decEq _ _
  | a, s :: l, b =>
    have : Decidable (Chain s.stop l b) := instDecidableChain s.stop l b
    inferInstanceAs (Decidable (_ ∧ _ ∧ _))

/-- Spec invariant 3: no two consecutive slices are both unnamed. -/
def NoAdjGaps : List Slice → Prop
  | [] => True
  | [_] => True
  | s :: t :: l => ¬(s.name = none ∧ t.name = none) ∧ NoAdjGaps (t :: l)

instance instDecidableNoAdjGaps : (l : List Slice) → Decidable (NoAdjGaps l)
  | [] => inferInstanceAs (Decidable True)
  | [_] => inferInstanceAs (Decidable True)
  | _ :: t :: l =>
    have : Decidable (NoAdjGaps (t :: l)) := instDecidableNoAdjGaps (t :: l)
    inferInstanceAs (Decidable (_ ∧ _))

/-- Spec invariants 1, 2 and 4 for a table: its slices tile
`[table.start, table.stop)`. -/
def ChainInv (t : SliceTable) : Prop :=
  Chain t.start t.slices t.stop

/-- All four partition invariants of the spec. -/
def PartitionInv (t : SliceTable) : Prop :=
  Chain t.start t.slices t.stop ∧ NoAdjGaps t.slices

instance (t : SliceTable) : Decidable (ChainInv t) :=
  inferInstanceAs (Decidable (Chain _ _ _))

instance (t : SliceTable) : Decidable (PartitionInv t) :=
  inferInstanceAs (Decidable (_ ∧ _))

/-- One `add` or `remove` call on a table. -/
inductive Op where
  | add : Slice → Op
  | remove : Nat → Nat → Op
deriving Repr, DecidableEq

/-- Apply one operation. -/
def applyOp (t : SliceTable) : Op → Option SliceTable
  | .add s => t.add s
  | .remove a b => t.remove a b

/-- Apply a sequence of operations; `none` as soon as one call fails. -/
def applyOps (t : SliceTable) : List Op → Option SliceTable
  | [] => some t
  | op :: ops =>
    match applyOp t op with
    | none => none
    | some t' => applyOps t' ops

/-- Pointwise equality of slice lists on the fields `start`, `stop` and
`name` (the fields that determine the partition and its ownership; Python's
`Slice.__eq__` compares only `start` and `stop`). -/
def sliceListEqv : List Slice → List Slice → Prop
  | [], [] => True
  | a :: l, b :: m => a.start = b.start ∧ a.stop = b.stop ∧ a.name = b.name ∧ sliceListEqv l m
  | _, _ => False

instance instDecidableSliceListEqv : (l m : List Slice) → Decidable (sliceListEqv l m)
  | [], [] => inferInstanceAs (Decidable True)
  | _ :: l, _ :: m =>
    have : Decidable (sliceListEqv l m) := instDecidableSliceListEqv l m
    inferInstanceAs (Decidable (_ ∧ _ ∧ _ ∧ _))
  | [], _ :: _ => inferInstanceAs (Decidable False)
  | _ :: _, [] => inferInstanceAs (Decidable False)

/-- The named slices of a list, in order. -/
def namedSlices (l : List Slice) : List Slice :=
  l.filter (fun s => s.name.isSome)

/-- Metadata provenance: `s` inherits its section label and tag set from some
slice `o` of `orig`, and is either an unnamed gap or keeps `o`'s name while
staying inside `o`'s interval. -/
def ProvFrom (orig : List Slice) (s : Slice) : Prop :=
  ∃ o ∈ orig, s.«section» = o.«section» ∧ s.tags = o.tags ∧
    (s.name = none ∨ (s.name = o.name ∧ o.start ≤ s.start ∧ s.stop ≤ o.stop))

/-! ### List indexing helpers -/

theorem get?_append_length (P R : List Slice) (t : Slice) :
    (P ++ t :: R).get? P.length = some t := by
  induction P with
  | nil => rfl
  | cons a P ih => simpa using ih

theorem get?_append_lt (P R : List Slice) (i : Nat) (h : i < P.length) :
    (P ++ R).get? i = P.get? i := by
  induction P generalizing i with
  | nil => simp at h
  | cons a P ih =>
    cases i with
    | zero => rfl
    | succ i => simpa using ih i (by simpa using h)

theorem set_append_length (P R : List Slice) (t x : Slice) :
    (P ++ t :: R).set P.length x = P ++ x :: R := by
  induction P with
  | nil => rfl
  | cons a P ih => simpa using ih

theorem insertAt_append_length (P R : List Slice) (x : Slice) :
    insertAt (P ++ R) P.length x = P ++ x :: R := by
  induction P with
  | nil => cases R <;> rfl
  | cons a P ih => simpa [insertAt] using ih

theorem eraseIdx_append_length (P R : List Slice) (t : Slice) :
    (P ++ t :: R).eraseIdx P.length = P ++ R := by
  induction P with
  | nil => rfl
  | cons a P ih => simpa [List.eraseIdx] using ih

/-! ### Chain lemmas -/

theorem chain_nil_iff {a b : Nat} : Chain a ([] : List Slice) b ↔ a = b := Iff.rfl

theorem chain_cons_iff {a b : Nat} {s : Slice} {l : List Slice} :
    Chain a (s :: l) b ↔ s.start = a ∧ a < s.stop ∧ Chain s.stop l b := Iff.rfl

theorem chain_le {a b : Nat} {l : List Slice} (h : Chain a l b) : a ≤ b := by
  induction l generalizing a with
  | nil => exact h.le
  | cons s l ih => exact le_trans (le_of_lt h.2.1) (ih h.2.2)

theorem chain_append {a m b : Nat} {P R : List Slice}
    (h1 : Chain a P m) (h2 : Chain m R b) : Chain a (P ++ R) b := by
  induction P generalizing a with
  | nil => rwa [h1]
  | cons s P ih => exact ⟨h1.1, h1.2.1, ih h1.2.2⟩

theorem chain_append_inv {a b : Nat} {P R : List Slice}
    (h : Chain a (P ++ R) b) : ∃ m, Chain a P m ∧ Chain m R b := by
  induction P generalizing a with
  | nil => exact ⟨a, rfl, h⟩
  | cons s P ih =>
    obtain ⟨m, hm1, hm2⟩ := ih h.2.2
    exact ⟨m, ⟨h.1, h.2.1, hm1⟩, hm2⟩

theorem chain_mem {b : Nat} {l : List Slice} {s : Slice} :
    ∀ {a : Nat}, Chain a l b → s ∈ l → a ≤ s.start ∧ s.start < s.stop ∧ s.stop ≤ b := by
  induction l with
  | nil => intro a _ hs; cases hs
  | cons x l ih =>
    intro a h hs
    obtain ⟨e1, e2, hc⟩ := h
    rcases List.mem_cons.mp hs with rfl | hs
    · exact ⟨by omega, by omega, chain_le hc⟩
    · obtain ⟨h1, h2, h3⟩ := ih hc hs
      exact ⟨by omega, h2, h3⟩

theorem chain_locate {b x : Nat} {l : List Slice} :
    ∀ {a : Nat}, Chain a l b → a ≤ x → x < b →
    ∃ P tgt R, l = P ++ tgt :: R ∧ tgt.start ≤ x ∧ x < tgt.stop ∧
      Chain a P tgt.start ∧ Chain tgt.stop R b := by
  induction l with
  | nil =>
    intro a h ha hb
    have : a = b := h
    omega
  | cons s l ih =>
    intro a h ha hb
    obtain ⟨e1, e2, hc⟩ := h
    by_cases hx : x < s.stop
    · exact ⟨[], s, l, rfl, by omega, hx, e1.symm, hc⟩
    · obtain ⟨P, tgt, R, hl, h1, h2, h3, h4⟩ := ih hc (le_of_not_lt hx) hb
      exact ⟨s :: P, tgt, R, by rw [hl]; rfl, h1, h2, ⟨e1, e2, h3⟩, h4⟩

/-! ### `find` characterization -/

theorem findAux_append {P R : List Slice} {tgt : Slice} {x : Nat}
    (hP : ∀ p ∈ P, ¬(p.start ≤ x ∧ x < p.stop))
    (h1 : tgt.start ≤ x) (h2 : x < tgt.stop) (k : Nat) :
    findAux (P ++ tgt :: R) x k = some (tgt, k + P.length) := by
  induction P generalizing k with
  | nil => simp [findAux, h1, h2]
  | cons p P ih =>
    have hp := hP p (List.mem_cons_self _ _)
    simp only [List.cons_append, findAux, if_neg hp, List.length_cons]
    rw [show k + (P.length + 1) = (k + 1) + P.length by omega]
    exact ih (fun q hq => hP q (List.mem_cons_of_mem _ hq)) (k + 1)

theorem findAux_some {l : List Slice} {x k : Nat} {tgt : Slice} {i : Nat}
    (h : findAux l x k = some (tgt, i)) :
    ∃ P R, l = P ++ tgt :: R ∧ i = k + P.length ∧ tgt.start ≤ x ∧ x < tgt.stop ∧
      ∀ p ∈ P, ¬(p.start ≤ x ∧ x < p.stop) := by
  induction l generalizing k with
  | nil => simp [findAux] at h
  | cons s l ih =>
    by_cases hs : s.start ≤ x ∧ x < s.stop
    · simp only [findAux, if_pos hs, Option.some.injEq, Prod.mk.injEq] at h
      obtain ⟨rfl, rfl⟩ := h
      exact ⟨[], l, rfl, by simp, hs.1, hs.2, by simp⟩
    · simp only [findAux, if_neg hs] at h
      obtain ⟨P, R, hl, hi, h1, h2, hP⟩ := ih h
      refine ⟨s :: P, R, by rw [hl]; rfl, by simp only [List.length_cons]; omega, h1, h2, ?_⟩
      intro p hp
      rcases List.mem_cons.mp hp with rfl | hp
      · exact hs
      · exact hP p hp

/-- Under a chain, the slices before the located target cannot contain the
probe address. -/
theorem chain_no_contain {a m x : Nat} {P : List Slice} (h : Chain a P m)
    (hm : m ≤ x) : ∀ p ∈ P, ¬(p.start ≤ x ∧ x < p.stop) := by
  intro p hp
  obtain ⟨_, _, h3⟩ := chain_mem h hp
  omega

/-! ### `bisect` characterization -/

theorem bisect_append {P R : List Slice} {tgt : Slice} {s : Slice}
    (hP : ∀ p ∈ P, p.start ≤ s.start) (h1 : tgt.start ≤ s.start)
    (hR : ∀ r ∈ R.head?, s.start < r.start) :
    bisect (P ++ tgt :: R) s = P.length + 1 := by
  induction P with
  | nil =>
    cases R with
    | nil => simp [bisect, List.takeWhile_cons, h1]
    | cons r R =>
      have hr := hR r rfl
      simp [bisect, List.takeWhile_cons, h1, not_le.mpr hr]
  | cons p P ih =>
    have hp := hP p (List.mem_cons_self _ _)
    have ihr := ih (fun q hq => hP q (List.mem_cons_of_mem _ hq))
    simp only [bisect, List.cons_append, List.takeWhile_cons, decide_eq_true_eq, if_pos hp,
      List.length_cons] at ihr ⊢
    omega

/-! ### Python list-operation helpers at natural indices -/

theorem pyGet_ofNat (l : List α) (n : Nat) : pyGet l (n : Int) = l.get? n := by
  simp [pyGet]

theorem pySet_ofNat (l : List α) (n : Nat) (x : α) (h : n < l.length) :
    pySet l (n : Int) x = some (l.set n x) := by
  simp [pySet, h]

theorem pyInsert_ofNat (l : List α) (n : Nat) (x : α) :
    pyInsert l (n : Int) x = insertAt l n x := by
  simp [pyInsert]

/-! ### Characterization of `add` -/

/-- The full behavior of `SliceTable.add` on a start-sorted table, located at
the slice whose `start` is the last one `≤ s.start`: failure exactly when the
target is named or does not enclose `s`, else in-place replacement of the
target by left gap (if any), `s`, and right gap (if any). -/
theorem add_eq {t : SliceTable} {P R : List Slice} {tgt s : Slice}
    (hslices : t.slices = P ++ tgt :: R)
    (hP : ∀ p ∈ P, p.start ≤ s.start)
    (htgt : tgt.start ≤ s.start)
    (hR : ∀ r ∈ R.head?, s.start < r.start)
    (hlen : s.start < s.stop)
    (hfit : t.start ≤ s.start ∧ s.stop ≤ t.stop) :
    t.add s =
      if tgt.name = none ∧ s.stop ≤ tgt.stop then
        some { t with slices :=
          P ++ (if tgt.start < s.start then [⟨tgt.start, s.start, none, none, []⟩] else [])
            ++ s :: (if s.stop < tgt.stop then [⟨s.stop, tgt.stop, none, none, []⟩] else [])
            ++ R }
      else none := by
  have hb : bisect (P ++ tgt :: R) s = P.length + 1 := bisect_append hP htgt hR
  have hi : ((bisect (P ++ tgt :: R) s : Nat) : Int) - 1 = ((P.length : Nat) : Int) := by
    rw [hb]; push_cast; ring
  simp only [SliceTable.add, if_neg (not_not_intro hlen), if_neg (not_not_intro hfit), hslices,
    hi, pyGet_ofNat, get?_append_length]
  by_cases hok : tgt.name = none ∧ s.stop ≤ tgt.stop
  · rw [if_pos hok]
    have hguard : tgt.name = none ∧ tgt.start ≤ s.start ∧ s.stop ≤ tgt.stop :=
      ⟨hok.1, htgt, hok.2⟩
    rw [if_neg (not_not_intro hguard)]
    by_cases hlg : tgt.start < s.start
    · rw [if_pos hlg]
      have e1 : pyInsert (P ++ tgt :: R) ((P.length : Nat) : Int)
          ⟨tgt.start, s.start, none, none, []⟩ = P ++ ⟨tgt.start, s.start, none, none, []⟩ :: tgt :: R := by
        rw [pyInsert_ofNat]
        exact insertAt_append_length P (tgt :: R) _
      have e2 : (((P.length : Nat) : Int) + 1) = (((P.length + 1 : Nat)) : Int) := by push_cast; ring
      simp only [e1, e2]
      have e3 : pySet (P ++ ⟨tgt.start, s.start, none, none, []⟩ :: tgt :: R)
          (((P.length + 1 : Nat)) : Int) s
          = some ((P ++ [(⟨tgt.start, s.start, none, none, []⟩ : Slice)]) ++ s :: R) := by
        rw [pySet_ofNat _ _ _ (by simp)]
        have := set_append_length (P ++ [(⟨tgt.start, s.start, none, none, []⟩ : Slice)]) R tgt s
        simp only [List.length_append, List.length_cons, List.length_nil] at this ⊢
        rw [show P.length + 1 = P.length + (0 + 1) from by omega] at this
        simpa using this
      simp only [e3]
      by_cases hrg : s.stop < tgt.stop
      · rw [if_pos hrg, if_pos hrg]
        have e4 : ((((P.length + 1 : Nat)) : Int) + 1) = (((P.length + 2 : Nat)) : Int) := by
          push_cast; ring
        rw [e4, pyInsert_ofNat]
        have := insertAt_append_length
          (P ++ [(⟨tgt.start, s.start, none, none, []⟩ : Slice), s]) R
          (⟨s.stop, tgt.stop, none, none, []⟩ : Slice)
        simp only [List.length_append, List.length_cons, List.length_nil, List.append_assoc,
          List.cons_append, List.nil_append] at this ⊢
        rw [show P.length + 2 = P.length + (0 + 1 + 1) from by omega] at this
        simp [this, if_pos hlg]
      · rw [if_neg hrg, if_neg hrg]
        simp [if_pos hlg]
    · rw [if_neg hlg]
      have e3 : pySet (P ++ tgt :: R) ((P.length : Nat) : Int) s = some (P ++ s :: R) := by
        rw [pySet_ofNat _ _ _ (by simp)]
        rw [set_append_length]
      simp only [e3]
      by_cases hrg : s.stop < tgt.stop
      · rw [if_pos hrg, if_pos hrg]
        have e4 : (((P.length : Nat) : Int) + 1) = (((P.length + 1 : Nat)) : Int) := by
          push_cast; ring
        rw [e4, pyInsert_ofNat]
        have := insertAt_append_length (P ++ [s]) R (⟨s.stop, tgt.stop, none, none, []⟩ : Slice)
        simp only [List.length_append, List.length_cons, List.length_nil, List.append_assoc,
          List.cons_append, List.nil_append] at this ⊢
        rw [show P.length + 1 = P.length + (0 + 1) from by omega] at this
        simp [this, if_neg hlg]
      · rw [if_neg hrg, if_neg hrg]
        simp [if_neg hlg]
  · rw [if_neg hok]
    have : ¬(tgt.name = none ∧ tgt.start ≤ s.start ∧ s.stop ≤ tgt.stop) := by
      intro h; exact hok ⟨h.1, h.2.2⟩
    rw [if_pos this]

/-! ### Characterization of `__merge_left` / `__merge_right` / `__remove_slice` -/

theorem get?_decomp {l : List Slice} {i : Nat} {x : Slice} (h : l.get? i = some x) :
    ∃ P R, l = P ++ x :: R ∧ P.length = i := by
  induction l generalizing i with
  | nil => simp [List.get?] at h
  | cons a l ih =>
    cases i with
    | zero =>
      simp only [List.get?, Option.some.injEq] at h
      exact ⟨[], l, by rw [h]; rfl, rfl⟩
    | succ i =>
      obtain ⟨P, R, hl, hP⟩ := ih h
      exact ⟨a :: P, R, by rw [hl]; rfl, by simp [hP]⟩

theorem mergeLeft_out {P R : List Slice} {g : Slice} {r : List Slice × Nat}
    (hg : g.name = none) (h : mergeLeft (P ++ g :: R) P.length = some r) :
    r = (P ++ g :: R, P.length) ∨
      ∃ P0 p, P = P0 ++ [p] ∧ p.name = none ∧
        r = (P0 ++ { p with stop := g.stop } :: R, P0.length) := by
  simp only [mergeLeft, get?_append_length, hg, Option.isSome_none, Bool.false_eq_true,
    if_false] at h
  by_cases hP : 0 < P.length
  · rw [if_pos hP] at h
    obtain ⟨P0, p, hP0⟩ : ∃ P0 p, P = P0 ++ [p] := by
      rcases List.eq_nil_or_concat P with rfl | ⟨P0, p, hP0⟩
      · simp at hP
      · exact ⟨P0, p, by simpa [List.concat_eq_append] using hP0⟩
    subst hP0
    have hget : ((P0 ++ [p]) ++ g :: R).get? ((P0 ++ [p]).length - 1) = some p := by
      simp only [List.append_assoc, List.cons_append, List.nil_append, List.length_append,
        List.length_cons, List.length_nil]
      rw [show P0.length + (0 + 1) - 1 = P0.length by omega]
      exact get?_append_length P0 (g :: R) p
    simp only [hget] at h
    by_cases hp : p.name.isSome
    · rw [if_pos hp] at h
      left
      simpa using h.symm
    · rw [if_neg hp] at h
      right
      refine ⟨P0, p, rfl, Option.not_isSome_iff_eq_none.mp hp, ?_⟩
      simp only [Option.some.injEq] at h
      rw [← h]
      have hset : ((P0 ++ [p]) ++ g :: R).set ((P0 ++ [p]).length - 1) { p with stop := g.stop }
          = (P0 ++ [{ p with stop := g.stop }]) ++ g :: R := by
        simp only [List.append_assoc, List.cons_append, List.nil_append, List.length_append,
          List.length_cons, List.length_nil]
        rw [show P0.length + (0 + 1) - 1 = P0.length by omega]
        exact set_append_length P0 (g :: R) p { p with stop := g.stop }
      rw [hset]
      have herase := eraseIdx_append_length (P0 ++ [{ p with stop := g.stop }]) R g
      simp only [List.append_assoc, List.cons_append, List.nil_append, List.length_append,
        List.length_cons, List.length_nil] at herase ⊢
      rw [show P0.length + (0 + 1) = P0.length + 1 by omega] at herase ⊢
      rw [herase]
      norm_num
  · rw [if_neg hP] at h
    left
    simpa using h.symm

theorem mergeRight_out {P R : List Slice} {g : Slice} {r : List Slice × Nat}
    (hg : g.name = none) (h : mergeRight (P ++ g :: R) P.length = some r) :
    r = (P ++ g :: R, P.length) ∨
      ∃ rt R', R = rt :: R' ∧ rt.name = none ∧
        r = (P ++ { rt with start := g.start } :: R', P.length) := by
  rw [mergeRight, get?_append_length] at h
  simp only [hg, Option.isSome_none, Bool.false_eq_true, if_false] at h
  cases R with
  | nil =>
    left
    rw [List.get?_eq_none.mpr (by simp)] at h
    simpa using h.symm
  | cons rt R' =>
    have hget : (P ++ g :: rt :: R').get? (P.length + 1) = some rt := by
      have := get?_append_length (P ++ [g]) R' rt
      simpa using this
    simp only [hget] at h
    by_cases hrt : rt.name.isSome
    · rw [if_pos hrt] at h
      left
      simpa using h.symm
    · rw [if_neg hrt] at h
      right
      refine ⟨rt, R', rfl, Option.not_isSome_iff_eq_none.mp hrt, ?_⟩
      simp only [Option.some.injEq] at h
      rw [← h]
      congr 1
      have hset := set_append_length (P ++ [g]) R' rt { rt with start := g.start }
      simp only [List.append_assoc, List.cons_append, List.nil_append,
        List.length_append, List.length_cons, List.length_nil] at hset
      rw [show P.length + (0 + 1) = P.length + 1 by omega] at hset
      rw [hset]
      exact eraseIdx_append_length P ({ rt with start := g.start } :: R') g

/-- Extraction of the assertion guards from a successful `removeSlice`. -/
theorem removeSlice_inv {l : List Slice} {idx ns nstop : Nat} {r : List Slice × Nat}
    (h : removeSlice l idx ns nstop = some r) :
    ∃ tgt, l.get? idx = some tgt ∧ ns < nstop ∧ tgt.start ≤ ns ∧ nstop ≤ tgt.stop := by
  rw [removeSlice] at h
  cases hidx : l.get? idx with
  | none => rw [hidx] at h; cases h
  | some tgt =>
    simp only [hidx] at h
    refine ⟨tgt, rfl, ?_⟩
    by_cases h1 : ns < nstop
    · by_cases h2 : tgt.start ≤ ns
      · by_cases h3 : nstop ≤ tgt.stop
        · exact ⟨h1, h2, h3⟩
        · rw [if_neg (not_not_intro h1), if_neg (not_not_intro h2), if_pos h3] at h; cases h
      · rw [if_neg (not_not_intro h1), if_pos h2] at h; cases h
    · rw [if_pos h1] at h; cases h

theorem removeSlice_exact {P R : List Slice} {tgt : Slice} {ns nstop : Nat}
    (h1 : ns < nstop) (h2 : tgt.start = ns) (h3 : tgt.stop = nstop) :
    removeSlice (P ++ tgt :: R) P.length ns nstop =
      (mergeLeft (P ++ { tgt with name := none } :: R) P.length).bind
        (fun li => mergeRight li.1 li.2) := by
  simp only [removeSlice, get?_append_length]
  rw [if_neg (not_not_intro h1), if_neg (not_not_intro (le_of_eq h2)),
    if_neg (not_not_intro (le_of_eq h3.symm)), if_pos ⟨h2, h3⟩, set_append_length]
  cases mergeLeft (P ++ { tgt with name := none } :: R) P.length with
  | none => rfl
  | some li => rfl

theorem removeSlice_left {P R : List Slice} {tgt : Slice} {ns nstop : Nat}
    (h1 : ns < nstop) (h2 : tgt.start = ns) (h3 : nstop < tgt.stop) :
    removeSlice (P ++ tgt :: R) P.length ns nstop =
      mergeLeft (P ++ { tgt with name := none, stop := nstop } ::
        { tgt with start := nstop } :: R) P.length := by
  simp only [removeSlice, get?_append_length]
  rw [if_neg (not_not_intro h1), if_neg (not_not_intro (le_of_eq h2)),
    if_neg (not_not_intro (le_of_lt h3)), if_neg (by intro hc; omega), if_pos h2,
    set_append_length]
  congr 1
  have := insertAt_append_length (P ++ [{ tgt with name := none, stop := nstop }])
    R ({ tgt with start := nstop })
  simpa using this

theorem removeSlice_right {P R : List Slice} {tgt : Slice} {ns nstop : Nat}
    (h1 : ns < nstop) (h2 : tgt.start < ns) (h3 : tgt.stop = nstop) :
    removeSlice (P ++ tgt :: R) P.length ns nstop =
      mergeRight (P ++ { tgt with stop := ns } ::
        { tgt with name := none, start := ns } :: R) (P.length + 1) := by
  simp only [removeSlice, get?_append_length]
  rw [if_neg (not_not_intro h1), if_neg (not_not_intro (le_of_lt h2)),
    if_neg (not_not_intro (le_of_eq h3.symm)), if_neg (by intro hc; omega),
    if_neg (by intro hc; omega), if_pos h3, set_append_length]
  congr 1
  have := insertAt_append_length (P ++ [{ tgt with stop := ns }])
    R ({ tgt with name := none, start := ns })
  simpa using this

theorem removeSlice_interior {P R : List Slice} {tgt : Slice} {ns nstop : Nat}
    (h1 : ns < nstop) (h2 : tgt.start < ns) (h3 : nstop < tgt.stop) :
    removeSlice (P ++ tgt :: R) P.length ns nstop =
      some (P ++ { tgt with stop := ns } ::
        { tgt with name := none, start := ns, stop := nstop } ::
        { tgt with start := nstop } :: R, P.length + 1) := by
  simp only [removeSlice, get?_append_length]
  rw [if_neg (not_not_intro h1), if_neg (not_not_intro (le_of_lt h2)),
    if_neg (not_not_intro (le_of_lt h3)), if_neg (by intro hc; omega),
    if_neg (by intro hc; omega), if_neg (by intro hc; omega), set_append_length]
  have e1 := insertAt_append_length (P ++ [{ tgt with stop := ns }])
    R ({ tgt with name := none, start := ns, stop := nstop })
  simp only [List.append_assoc, List.cons_append, List.nil_append, List.length_append,
    List.length_cons, List.length_nil] at e1
  rw [show P.length + (0 + 1) = P.length + 1 by omega] at e1
  rw [e1]
  have e2 := insertAt_append_length
    (P ++ [{ tgt with stop := ns }, { tgt with name := none, start := ns, stop := nstop }])
    R ({ tgt with start := nstop })
  simp only [List.append_assoc, List.cons_append, List.nil_append, List.length_append,
    List.length_cons, List.length_nil] at e2
  rw [show P.length + (0 + 1 + 1) = P.length + 2 by omega] at e2
  rw [e2]

/-! ### Chain preservation -/

theorem chain_mid {a b : Nat} {P R : List Slice} {g g' : Slice}
    (hch : Chain a (P ++ g :: R) b) (hstart : g'.start = g.start) (hstop : g'.stop = g.stop) :
    Chain a (P ++ g' :: R) b := by
  obtain ⟨m, hPm, hmg⟩ := chain_append_inv hch
  obtain ⟨e1, e2, hc⟩ := hmg
  exact chain_append hPm ⟨by omega, by omega, hstop ▸ hc⟩

theorem mergeLeft_chain {a b : Nat} {P R : List Slice} {g : Slice} {r : List Slice × Nat}
    (hch : Chain a (P ++ g :: R) b) (hg : g.name = none)
    (h : mergeLeft (P ++ g :: R) P.length = some r) : Chain a r.1 b := by
  rcases mergeLeft_out hg h with rfl | ⟨P0, p, rfl, hp, rfl⟩
  · exact hch
  · obtain ⟨m, hPm, hmg⟩ := chain_append_inv hch
    obtain ⟨m', hP0, hpm⟩ := chain_append_inv (by simpa using hPm)
    obtain ⟨f1, f2, f3⟩ := hpm
    have hpstop : p.stop = m := f3
    obtain ⟨e1, e2, hc⟩ := hmg
    refine chain_append hP0 ⟨by simpa using f1, ?_, by simpa using hc⟩
    simp only []
    omega

theorem mergeRight_chain {a b : Nat} {P R : List Slice} {g : Slice} {r : List Slice × Nat}
    (hch : Chain a (P ++ g :: R) b) (hg : g.name = none)
    (h : mergeRight (P ++ g :: R) P.length = some r) : Chain a r.1 b := by
  rcases mergeRight_out hg h with rfl | ⟨rt, R', rfl, hrt, rfl⟩
  · exact hch
  · obtain ⟨m, hPm, hmg⟩ := chain_append_inv hch
    obtain ⟨e1, e2, hc⟩ := hmg
    obtain ⟨f1, f2, f3⟩ := hc
    exact chain_append hPm ⟨by simpa using e1, by simpa using (by omega : m < rt.stop), f3⟩

theorem mergeLR_chain {a b : Nat} {P R : List Slice} {g : Slice} {r2 : List Slice × Nat}
    (hch : Chain a (P ++ g :: R) b) (hg : g.name = none)
    (h : (mergeLeft (P ++ g :: R) P.length).bind (fun li => mergeRight li.1 li.2) = some r2) :
    Chain a r2.1 b := by
  obtain ⟨li, hml, hmr⟩ := Option.bind_eq_some.mp h
  rcases mergeLeft_out hg hml with rfl | ⟨P0, p, rfl, hp, rfl⟩
  · exact mergeRight_chain hch hg hmr
  · have hch2 : Chain a (P0 ++ { p with stop := g.stop } :: R) b := by
      obtain ⟨m, hPm, hmg⟩ := chain_append_inv hch
      obtain ⟨m', hP0, hpm⟩ := chain_append_inv (by simpa using hPm)
      obtain ⟨f1, f2, f3⟩ := hpm
      have hpstop : p.stop = m := f3
      obtain ⟨e1, e2, hc⟩ := hmg
      refine chain_append hP0 ⟨by simpa using f1, ?_, by simpa using hc⟩
      simp only []
      omega
    exact mergeRight_chain hch2 (by simpa using hp) hmr

theorem removeSlice_chain {a b : Nat} {l : List Slice} {idx ns nstop : Nat}
    {r : List Slice × Nat} (hch : Chain a l b)
    (h : removeSlice l idx ns nstop = some r) : Chain a r.1 b := by
  obtain ⟨tgt, hidx, h1, h2, h3⟩ := removeSlice_inv h
  obtain ⟨P, R, rfl, hP⟩ := get?_decomp hidx
  subst hP
  obtain ⟨m, hPm, hmg⟩ := chain_append_inv hch
  obtain ⟨e1, e2, hc⟩ := hmg
  by_cases c2 : tgt.start = ns
  · by_cases c3 : tgt.stop = nstop
    · rw [removeSlice_exact h1 c2 c3] at h
      have hmid : Chain a (P ++ ({ tgt with name := none } : Slice) :: R) b :=
        chain_mid hch rfl rfl
      exact mergeLR_chain hmid rfl h
    · have c3' : nstop < tgt.stop := by omega
      rw [removeSlice_left h1 c2 c3'] at h
      have hch2 : Chain a (P ++ { tgt with name := none, stop := nstop } ::
          { tgt with start := nstop } :: R) b :=
        chain_append hPm ⟨by simpa using e1, by simp only []; omega,
          by simpa using ⟨rfl, c3', hc⟩⟩
      exact mergeLeft_chain hch2 rfl h
  · have c2' : tgt.start < ns := by omega
    by_cases c3 : tgt.stop = nstop
    · rw [removeSlice_right h1 c2' c3] at h
      have hch2 : Chain a ((P ++ [{ tgt with stop := ns }]) ++
          ({ tgt with name := none, start := ns } : Slice) :: R) b := by
        simp only [List.append_assoc, List.cons_append, List.nil_append]
        exact chain_append hPm ⟨by simpa using e1, by simp only []; omega,
          by simpa using ⟨rfl, by simp only []; omega, hc⟩⟩
      have h' : mergeRight ((P ++ [{ tgt with stop := ns }]) ++
          ({ tgt with name := none, start := ns } : Slice) :: R)
          ((P ++ [({ tgt with stop := ns } : Slice)]).length) = some r := by
        simpa using h
      exact mergeRight_chain hch2 rfl h'
    · have c3' : nstop < tgt.stop := by omega
      rw [removeSlice_interior h1 c2' c3'] at h
      have hr : r.1 = P ++ { tgt with stop := ns } ::
          { tgt with name := none, start := ns, stop := nstop } ::
          { tgt with start := nstop } :: R := by
        cases h; rfl
      rw [hr]
      exact chain_append hPm ⟨by simpa using e1, by simp only []; omega,
        ⟨rfl, by simp only []; omega, by simpa using ⟨rfl, by simp only []; omega, hc⟩⟩⟩

theorem removeLoop_chain {a b st sp : Nat} :
    ∀ (fuel : Nat) {l : List Slice} {idx : Nat} {out : List Slice},
      Chain a l b → removeLoop l idx st sp fuel = some out → Chain a out b := by
  intro fuel
  induction fuel with
  | zero => intro l idx out _ h; cases h
  | succ fuel ih =>
    intro l idx out hch h
    rw [removeLoop] at h
    cases hidx : l.get? idx with
    | none => rw [hidx] at h; cases h; exact hch
    | some target =>
      simp only [hidx] at h
      by_cases hguard : sp ≤ target.start
      · rw [if_pos hguard] at h; cases h; exact hch
      · rw [if_neg hguard] at h
        cases hrs : removeSlice l idx (max st target.start) (min sp target.stop) with
        | none => rw [hrs] at h; cases h
        | some li =>
          rw [hrs] at h
          exact ih (removeSlice_chain hch hrs) h

theorem remove_chain {t t' : SliceTable} {a b : Nat} (hInv : ChainInv t)
    (h : t.remove a b = some t') :
    ChainInv t' ∧ t'.start = t.start ∧ t'.stop = t.stop := by
  rw [SliceTable.remove] at h
  cases hf : t.find (max a t.start) with
  | none => rw [hf] at h; cases h
  | some si =>
    obtain ⟨s0, idx⟩ := si
    simp only [hf] at h
    cases hl : removeLoop t.slices idx (max a t.start) (min b t.stop)
        (t.slices.length + min b t.stop + 1) with
    | none => rw [hl] at h; cases h
    | some l =>
      rw [hl] at h
      cases h
      exact ⟨removeLoop_chain _ hInv hl, rfl, rfl⟩

/-- Inversion of the leading asserts of a successful `add`. -/
theorem add_guards {t t' : SliceTable} {s : Slice} (h : t.add s = some t') :
    s.start < s.stop ∧ t.start ≤ s.start ∧ s.stop ≤ t.stop := by
  by_cases h1 : s.start < s.stop
  · by_cases h2 : t.start ≤ s.start ∧ s.stop ≤ t.stop
    · exact ⟨h1, h2⟩
    · rw [SliceTable.add, if_neg (not_not_intro h1), if_pos h2] at h; cases h
  · rw [SliceTable.add, if_pos h1] at h; cases h

/-- A chain-sorted table is decomposed by `chain_locate` into exactly the
shape `add_eq` requires at the probe `s.start`. -/
theorem add_decomp {t : SliceTable} {s : Slice} (hInv : ChainInv t)
    (h1 : t.start ≤ s.start) (h2 : s.start < t.stop) :
    ∃ P tgt R, t.slices = P ++ tgt :: R ∧ tgt.start ≤ s.start ∧ s.start < tgt.stop ∧
      Chain t.start P tgt.start ∧ Chain tgt.stop R t.stop ∧
      (∀ p ∈ P, p.start ≤ s.start) ∧ (∀ r ∈ R.head?, s.start < r.start) := by
  obtain ⟨P, tgt, R, hl, hts, hsx, hcP, hcR⟩ := chain_locate hInv h1 h2
  refine ⟨P, tgt, R, hl, hts, hsx, hcP, hcR, ?_, ?_⟩
  · intro p hp
    obtain ⟨_, g2, g3⟩ := chain_mem hcP hp
    omega
  · intro r hr
    cases R with
    | nil => cases hr
    | cons r0 R' =>
      have hr0 : r0 = r := by simpa using hr
      subst hr0
      have hstart : r0.start = tgt.stop := hcR.1
      omega

theorem add_chain {t t' : SliceTable} {s : Slice} (hInv : ChainInv t)
    (h : t.add s = some t') :
    ChainInv t' ∧ t'.start = t.start ∧ t'.stop = t.stop := by
  obtain ⟨h1, h2, h3⟩ := add_guards h
  obtain ⟨P, tgt, R, hl, hts, hsx, hcP, hcR, hPle, hRgt⟩ :=
    add_decomp hInv h2 (lt_of_lt_of_le h1 h3)
  rw [add_eq hl hPle hts hRgt h1 ⟨h2, h3⟩] at h
  by_cases hok : tgt.name = none ∧ s.stop ≤ tgt.stop
  · rw [if_pos hok] at h
    cases h
    refine ⟨?_, rfl, rfl⟩
    unfold ChainInv
    simp only [List.append_assoc, List.cons_append]
    refine chain_append hcP ?_
    by_cases hlg : tgt.start < s.start
    · rw [if_pos hlg]
      by_cases hrg : s.stop < tgt.stop
      · rw [if_pos hrg]
        simp only [List.singleton_append]
        exact ⟨rfl, hlg, rfl, h1, rfl, hrg, hcR⟩
      · rw [if_neg hrg]
        simp only [List.singleton_append, List.nil_append]
        exact ⟨rfl, hlg, rfl, h1, by rw [show s.stop = tgt.stop by omega]; exact hcR⟩
    · rw [if_neg hlg]
      by_cases hrg : s.stop < tgt.stop
      · rw [if_pos hrg]
        simp only [List.singleton_append, List.nil_append]
        exact ⟨by omega, by omega, rfl, hrg, hcR⟩
      · rw [if_neg hrg]
        simp only [List.nil_append]
        exact ⟨by omega, by omega, by rw [show s.stop = tgt.stop by omega]; exact hcR⟩
  · rw [if_neg hok] at h; cases h

theorem take_append_length (P R : List Slice) (t : Slice) :
    (P ++ t :: R).take P.length = P := by
  induction P with
  | nil => rfl
  | cons a P ih => simpa using ih

theorem drop_append_length (P R : List Slice) (t : Slice) :
    (P ++ t :: R).drop (P.length + 1) = R := by
  induction P with
  | nil => rfl
  | cons a P ih => simpa using ih

/-- Chain preservation for any successful operation. -/
theorem applyOp_chain {t t' : SliceTable} {op : Op} (hInv : ChainInv t)
    (h : applyOp t op = some t') :
    ChainInv t' ∧ t'.start = t.start ∧ t'.stop = t.stop := by
  cases op with
  | add s => exact add_chain hInv h
  | remove a b => exact remove_chain hInv h

theorem applyOps_chain {ops : List Op} :
    ∀ {t t' : SliceTable}, ChainInv t → applyOps t ops = some t' →
      ChainInv t' ∧ t'.start = t.start ∧ t'.stop = t.stop := by
  induction ops with
  | nil =>
    intro t t' hInv h
    cases h
    exact ⟨hInv, rfl, rfl⟩
  | cons op ops ih =>
    intro t t' hInv h
    rw [applyOps] at h
    cases hop : applyOp t op with
    | none => rw [hop] at h; cases h
    | some t1 =>
      rw [hop] at h
      obtain ⟨hI, hs, hp⟩ := applyOp_chain hInv hop
      obtain ⟨hI', hs', hp'⟩ := ih hI h
      exact ⟨hI', by omega, by omega⟩

/-! ### More merge equations and `NoAdjGaps` facts -/

/-- `__merge_left` with an unnamed left neighbor always merges. -/
theorem mergeLeft_eq_merge (P0 : List Slice) (p g : Slice) (R : List Slice)
    (hg : g.name = none) (hp : p.name = none) :
    mergeLeft ((P0 ++ [p]) ++ g :: R) (P0 ++ [p]).length =
      some (P0 ++ { p with stop := g.stop } :: R, P0.length) := by
  simp only [mergeLeft, get?_append_length, hg, Option.isSome_none, Bool.false_eq_true,
    if_false]
  rw [if_pos (by simp : 0 < (P0 ++ [p]).length)]
  have hget : ((P0 ++ [p]) ++ g :: R).get? ((P0 ++ [p]).length - 1) = some p := by
    simp only [List.append_assoc, List.cons_append, List.nil_append, List.length_append,
      List.length_cons, List.length_nil]
    rw [show P0.length + (0 + 1) - 1 = P0.length by omega]
    exact get?_append_length P0 (g :: R) p
  simp only [hget, hp, Option.isSome_none, Bool.false_eq_true, if_false]
  have hset : ((P0 ++ [p]) ++ g :: R).set ((P0 ++ [p]).length - 1)
        { p with stop := g.stop, name := none }
      = (P0 ++ [{ p with stop := g.stop, name := none }]) ++ g :: R := by
    simp only [List.append_assoc, List.cons_append, List.nil_append, List.length_append,
      List.length_cons, List.length_nil]
    rw [show P0.length + (0 + 1) - 1 = P0.length by omega]
    exact set_append_length P0 (g :: R) p { p with stop := g.stop, name := none }
  rw [hset]
  have herase := eraseIdx_append_length (P0 ++ [{ p with stop := g.stop, name := none }]) R g
  simp only [List.append_assoc, List.cons_append, List.nil_append, List.length_append,
    List.length_cons, List.length_nil] at herase ⊢
  rw [show P0.length + (0 + 1) = P0.length + 1 by omega] at herase ⊢
  rw [herase]
  norm_num

/-- `__merge_right` with an unnamed right neighbor always merges. -/
theorem mergeRight_eq_merge (P : List Slice) (g rt : Slice) (R' : List Slice)
    (hg : g.name = none) (hrt : rt.name = none) :
    mergeRight (P ++ g :: rt :: R') P.length =
      some (P ++ { rt with start := g.start } :: R', P.length) := by
  simp only [mergeRight, get?_append_length, hg, Option.isSome_none, Bool.false_eq_true,
    if_false]
  have hget : (P ++ g :: rt :: R').get? (P.length + 1) = some rt := by
    have := get?_append_length (P ++ [g]) R' rt
    simpa using this
  simp only [hget, hrt, Option.isSome_none, Bool.false_eq_true, if_false]
  have hset : (P ++ g :: rt :: R').set (P.length + 1) { rt with start := g.start, name := none }
      = P ++ g :: { rt with start := g.start, name := none } :: R' := by
    have := set_append_length (P ++ [g]) R' rt { rt with start := g.start, name := none }
    simp only [List.append_assoc, List.cons_append, List.nil_append, List.length_append,
      List.length_cons, List.length_nil] at this
    rw [show P.length + (0 + 1) = P.length + 1 by omega] at this
    exact this
  rw [hset, eraseIdx_append_length P ({ rt with start := g.start, name := none } :: R') g]

theorem noAdjGaps_tail {x : Slice} {l : List Slice} (h : NoAdjGaps (x :: l)) :
    NoAdjGaps l := by
  cases l with
  | nil => trivial
  | cons y l' => exact h.2

theorem noAdjGaps_at {a b : Slice} {Y : List Slice} :
    ∀ {X : List Slice}, NoAdjGaps (X ++ a :: b :: Y) → ¬(a.name = none ∧ b.name = none) := by
  intro X
  induction X with
  | nil => intro h; exact h.1
  | cons x X ih => intro h; exact ih (noAdjGaps_tail h)

/-! ### `sliceListEqv` facts -/

theorem sliceListEqv_refl : ∀ l : List Slice, sliceListEqv l l
  | [] => trivial
  | _ :: l => ⟨rfl, rfl, rfl, sliceListEqv_refl l⟩

theorem sliceListEqv_append {l1 l2 m1 m2 : List Slice}
    (h1 : sliceListEqv l1 l2) (h2 : sliceListEqv m1 m2) :
    sliceListEqv (l1 ++ m1) (l2 ++ m2) := by
  induction l1 generalizing l2 with
  | nil =>
    cases l2 with
    | nil => exact h2
    | cons b l2 => cases h1
  | cons a l1 ih =>
    cases l2 with
    | nil => cases h1
    | cons b l2 => exact ⟨h1.1, h1.2.1, h1.2.2.1, ih h1.2.2.2⟩

/-- One unfolding of the `__remove` loop at positive fuel. -/
theorem removeLoop_succ (l : List Slice) (idx st sp fuel : Nat) :
    removeLoop l idx st sp (fuel + 1) =
      match l.get? idx with
      | none => some l
      | some target =>
        if sp ≤ target.start then some l
        else
          match removeSlice l idx (max st target.start) (min sp target.stop) with
          | none => none
          | some (slices', idx') => removeLoop slices' (idx' + 1) st sp fuel := rfl

theorem getLast?_decomp {P : List Slice} {p : Slice} (h : P.getLast? = some p) :
    ∃ P0, P = P0 ++ [p] := by
  induction P with
  | nil => cases h
  | cons a P ih =>
    cases P with
    | nil =>
      simp only [List.getLast?_singleton, Option.some.injEq] at h
      exact ⟨[], by rw [h]; rfl⟩
    | cons b P' =>
      rw [List.getLast?_cons_cons] at h
      obtain ⟨P0, hP0⟩ := ih h
      exact ⟨a :: P0, by rw [hP0]; rfl⟩

/-- `__merge_left` does not merge when there is no left neighbor or the left
neighbor is named. -/
theorem mergeLeft_eq_keep (P : List Slice) (g : Slice) (R : List Slice)
    (hg : g.name = none) (hP : ∀ p, P.getLast? = some p → p.name.isSome) :
    mergeLeft (P ++ g :: R) P.length = some (P ++ g :: R, P.length) := by
  simp only [mergeLeft, get?_append_length, hg, Option.isSome_none, Bool.false_eq_true,
    if_false]
  by_cases hP0 : 0 < P.length
  · rw [if_pos hP0]
    obtain ⟨P0, p, hP0'⟩ : ∃ P0 p, P = P0 ++ [p] := by
      rcases List.eq_nil_or_concat P with rfl | ⟨P0, p, hP0'⟩
      · simp at hP0
      · exact ⟨P0, p, by simpa [List.concat_eq_append] using hP0'⟩
    subst hP0'
    have hget : ((P0 ++ [p]) ++ g :: R).get? ((P0 ++ [p]).length - 1) = some p := by
      simp only [List.append_assoc, List.cons_append, List.nil_append, List.length_append,
        List.length_cons, List.length_nil]
      rw [show P0.length + (0 + 1) - 1 = P0.length by omega]
      exact get?_append_length P0 (g :: R) p
    have hp : p.name.isSome := hP p (by simp)
    simp only [hget, hp, if_true]
  · rw [if_neg hP0]

/-- `__merge_right` does not merge when there is no right neighbor or the
right neighbor is named. -/
theorem mergeRight_eq_keep (P : List Slice) (g : Slice) (R : List Slice)
    (hg : g.name = none) (hR : ∀ rh, R.head? = some rh → rh.name.isSome) :
    mergeRight (P ++ g :: R) P.length = some (P ++ g :: R, P.length) := by
  simp only [mergeRight, get?_append_length, hg, Option.isSome_none, Bool.false_eq_true,
    if_false]
  cases R with
  | nil => rw [List.get?_eq_none.mpr (by simp)]
  | cons rt R' =>
    have hget : (P ++ g :: rt :: R').get? (P.length + 1) = some rt := by
      have := get?_append_length (P ++ [g]) R' rt
      simpa using this
    have hrt : rt.name.isSome := hR rt rfl
    simp only [hget, hrt, if_true]

theorem get?_append_length_succ (P R : List Slice) (x : Slice) :
    (P ++ x :: R).get? (P.length + 1) = R.head? := by
  induction P with
  | nil => cases R <;> rfl
  | cons a P ih => simpa using ih

/-- Full computation of `remove(s.start, s.stop)` when the carved range is
exactly one slice `s` of the table: one exact carve, the two merges, and the
loop stopping right after. -/
theorem remove_single_exact {T : SliceTable} {Q S : List Slice} {s : Slice}
    {out : List Slice × Nat}
    (hsl : T.slices = Q ++ s :: S)
    (hQ : ∀ p ∈ Q, ¬(p.start ≤ s.start ∧ s.start < p.stop))
    (hpos : s.start < s.stop)
    (hst : T.start ≤ s.start) (hsp : s.stop ≤ T.stop)
    (hmerge : (mergeLeft (Q ++ ({ s with name := none } : Slice) :: S) Q.length).bind
        (fun li => mergeRight li.1 li.2) = some out)
    (hend : ∀ x ∈ out.1.get? (out.2 + 1), s.stop ≤ x.start) :
    T.remove s.start s.stop = some { T with slices := out.1 } := by
  obtain ⟨o1, o2⟩ := out
  simp only [] at hend ⊢
  have hfind : T.find s.start = some (s, Q.length) := by
    rw [SliceTable.find, hsl]
    have h0 : findAux (Q ++ s :: S) s.start 0 = some (s, 0 + Q.length) :=
      findAux_append hQ (le_refl s.start) hpos 0
    simpa using h0
  have hrs : removeSlice (Q ++ s :: S) Q.length (max s.start s.start)
      (min s.stop s.stop) = some (o1, o2) := by
    rw [max_self, min_self, removeSlice_exact hpos rfl rfl, hmerge]
  have hloop : removeLoop T.slices Q.length s.start s.stop
      (T.slices.length + s.stop + 1) = some o1 := by
    rw [hsl, removeLoop_succ]
    simp only [get?_append_length]
    rw [if_neg (by omega)]
    simp only [hrs]
    have hfuel : (Q ++ s :: S).length + s.stop =
        ((Q ++ s :: S).length + s.stop - 1) + 1 := by
      have : 1 ≤ s.stop := by omega
      omega
    rw [hfuel, removeLoop_succ]
    cases hx : o1.get? (o2 + 1) with
    | none => simp only [hx]
    | some x =>
      simp only [hx]
      rw [if_pos (hend x (by rw [hx]; rfl))]
  simp only [SliceTable.remove, max_eq_left hst, min_eq_left hsp, hfind, hloop]

/-! ### One-carve characterization for the `__remove` loop -/

theorem namedSlices_append (X Y : List Slice) :
    namedSlices (X ++ Y) = namedSlices X ++ namedSlices Y := by
  simp [namedSlices, List.filter_append]

theorem namedSlices_cons_none {x : Slice} (hx : x.name = none) (Y : List Slice) :
    namedSlices (x :: Y) = namedSlices Y := by
  simp [namedSlices, List.filter_cons, hx]

/-- What one `__remove_slice` call inside the removal loop does to the
decomposed table: the list splits again into a processed prefix `P2` (made
of old prefix slices, unnamed pieces, and possibly a named left remainder
ending at or before the removal start) followed by an unprocessed suffix
`Rest2` that is still a chain starting at or beyond the carved range's end;
and when the carved slice is unnamed, the named slices are untouched. -/
theorem removeSlice_step {P R : List Slice} {t : Slice} {a' b' s1 m : Nat}
    {l2 : List Slice} {i2 : Nat}
    (e1 : t.start = m) (e2 : m < t.stop) (hcR : Chain t.stop R s1)
    (hrs : removeSlice (P ++ t :: R) P.length (max a' t.start) (min b' t.stop)
      = some (l2, i2)) :
    ∃ (P2 Rest2 : List Slice) (m2 : Nat),
      l2 = P2 ++ Rest2 ∧ i2 + 1 = P2.length ∧
      Chain m2 Rest2 s1 ∧ min b' t.stop ≤ m2 ∧
      (∀ s ∈ P2, s ∈ P ∨ s.name = none ∨ s.stop ≤ a') ∧
      (∀ s ∈ Rest2, s ∈ R ∨ s.name = t.name ∨ s.name = none) ∧
      (t.name = none → namedSlices l2 = namedSlices (P ++ t :: R)) := by
  obtain ⟨tgt, hget, h1, h2, h3⟩ := removeSlice_inv hrs
  rw [get?_append_length] at hget
  obtain rfl : t = tgt := Option.some.inj hget
  by_cases c2 : t.start = max a' t.start
  · by_cases c3 : t.stop = min b' t.stop
    · -- exact carve
      rw [removeSlice_exact h1 c2 c3] at hrs
      obtain ⟨li, hml, hmr⟩ := Option.bind_eq_some.mp hrs
      rcases mergeLeft_out rfl hml with heq | ⟨P0, p, hP, hp, heq⟩
      · subst heq
        have hmr' : mergeRight (P ++ ({ t with name := none } : Slice) :: R) P.length
            = some (l2, i2) := hmr
        rcases mergeRight_out rfl hmr' with heq2 | ⟨rt, R', hR, hrt, heq2⟩
        · injection heq2 with hl2 hi2
          subst hl2; subst hi2
          refine ⟨P ++ [{ t with name := none }], R, t.stop, by simp, by simp,
            hcR, min_le_right _ _, ?_, fun s hs => Or.inl hs, ?_⟩
          · intro s hs
            rcases List.mem_append.mp hs with hs | hs
            · exact Or.inl hs
            · have hse : s = { t with name := none } := by simpa using hs
              subst hse
              exact Or.inr (Or.inl rfl)
          · intro htn
            simp [namedSlices_append, namedSlices_cons_none, htn]
        · subst hR
          injection heq2 with hl2 hi2
          subst hl2; subst hi2
          obtain ⟨f1, f2, f3⟩ := hcR
          refine ⟨P ++ [{ rt with start := ({ t with name := none } : Slice).start }], R', rt.stop, by simp, by simp, f3, by omega, ?_, ?_, ?_⟩
          · intro s hs
            rcases List.mem_append.mp hs with hs | hs
            · exact Or.inl hs
            · have hse : s = { rt with start := ({ t with name := none } : Slice).start } := by simpa using hs
              subst hse
              exact Or.inr (Or.inl hrt)
          · intro s hs
            exact Or.inl (List.mem_cons_of_mem _ hs)
          · intro htn
            simp [namedSlices_append, namedSlices_cons_none, htn, hrt]
      · subst hP
        have hmr' : mergeRight (P0 ++ ({ p with stop := ({ t with name := none } : Slice).stop } : Slice) :: R) P0.length = some (l2, i2) := by
          have h0 : li = (P0 ++ ({ p with stop := ({ t with name := none } : Slice).stop } : Slice) :: R, P0.length) := heq
          rw [h0] at hmr
          exact hmr
        rcases mergeRight_out (show ({ p with stop := ({ t with name := none } : Slice).stop } : Slice).name = none from hp) hmr' with heq2 | ⟨rt, R', hR, hrt, heq2⟩
        · injection heq2 with hl2 hi2
          subst hl2; subst hi2
          refine ⟨P0 ++ [{ p with stop := ({ t with name := none } : Slice).stop }], R,
            t.stop, by simp, by simp, hcR, min_le_right _ _, ?_,
            fun s hs => Or.inl hs, ?_⟩
          · intro s hs
            rcases List.mem_append.mp hs with hs | hs
            · exact Or.inl (by simp [hs])
            · have hse : s = { p with stop := ({ t with name := none } : Slice).stop } := by simpa using hs
              subst hse
              exact Or.inr (Or.inl hp)
          · intro htn
            simp [namedSlices_append, namedSlices_cons_none, htn, hp]
        · subst hR
          injection heq2 with hl2 hi2
          subst hl2; subst hi2
          obtain ⟨f1, f2, f3⟩ := hcR
          refine ⟨P0 ++ [{ rt with start := ({ p with stop := ({ t with name := none } : Slice).stop } : Slice).start }], R', rt.stop, by simp, by simp, f3, by omega, ?_, ?_, ?_⟩
          · intro s hs
            rcases List.mem_append.mp hs with hs | hs
            · exact Or.inl (by simp [hs])
            · have hse : s = { rt with start := ({ p with stop := ({ t with name := none } : Slice).stop } : Slice).start } := by simpa using hs
              subst hse
              exact Or.inr (Or.inl hrt)
          · intro s hs
            exact Or.inl (List.mem_cons_of_mem _ hs)
          · intro htn
            simp [namedSlices_append, namedSlices_cons_none, htn, hp, hrt]
    · -- left-aligned carve
      have hlt : min b' t.stop < t.stop := by omega
      rw [removeSlice_left h1 c2 hlt] at hrs
      rcases mergeLeft_out rfl hrs with heq | ⟨P0, p, hP, hp, heq⟩
      · injection heq with hl2 hi2
        subst hl2; subst hi2
        refine ⟨P ++ [{ t with name := none, stop := min b' t.stop }],
          { t with start := min b' t.stop } :: R, min b' t.stop,
          by simp, by simp, ⟨rfl, by change min b' t.stop < t.stop; omega, hcR⟩,
          le_refl _, ?_, ?_, ?_⟩
        · intro s hs
          rcases List.mem_append.mp hs with hs | hs
          · exact Or.inl hs
          · have hse : s = { t with name := none, stop := min b' t.stop } := by simpa using hs
            subst hse
            exact Or.inr (Or.inl rfl)
        · intro s hs
          rcases List.mem_cons.mp hs with rfl | hs
          · exact Or.inr (Or.inl rfl)
          · exact Or.inl hs
        · intro htn
          simp [namedSlices_append, namedSlices_cons_none, htn]
      · subst hP
        injection heq with hl2 hi2
        subst hl2; subst hi2
        refine ⟨P0 ++ [{ p with stop := ({ t with name := none, stop := min b' t.stop } : Slice).stop }],
          { t with start := min b' t.stop } :: R, min b' t.stop,
          by simp, by simp, ⟨rfl, by change min b' t.stop < t.stop; omega, hcR⟩,
          le_refl _, ?_, ?_, ?_⟩
        · intro s hs
          rcases List.mem_append.mp hs with hs | hs
          · exact Or.inl (by simp [hs])
          · have hse : s = { p with stop := ({ t with name := none, stop := min b' t.stop } : Slice).stop } := by simpa using hs
            subst hse
            exact Or.inr (Or.inl hp)
        · intro s hs
          rcases List.mem_cons.mp hs with rfl | hs
          · exact Or.inr (Or.inl rfl)
          · exact Or.inl hs
        · intro htn
          simp [namedSlices_append, namedSlices_cons_none, htn, hp]
  · have hlt2 : t.start < max a' t.start := by omega
    by_cases c3 : t.stop = min b' t.stop
    · -- right-aligned carve
      rw [removeSlice_right h1 hlt2 c3] at hrs
      have hrs' : mergeRight ((P ++ [{ t with stop := max a' t.start }]) ++
          ({ t with name := none, start := max a' t.start } : Slice) :: R)
          ((P ++ [({ t with stop := max a' t.start } : Slice)]).length)
          = some (l2, i2) := by
        simpa using hrs
      rcases mergeRight_out rfl hrs' with heq2 | ⟨rt, R', hR, hrt, heq2⟩
      · injection heq2 with hl2 hi2
        subst hl2; subst hi2
        refine ⟨P ++ [{ t with stop := max a' t.start },
          { t with name := none, start := max a' t.start }], R, t.stop,
          by simp, by simp, hcR, min_le_right _ _, ?_, fun s hs => Or.inl hs, ?_⟩
        · intro s hs
          rcases List.mem_append.mp hs with hs | hs
          · exact Or.inl hs
          · rcases List.mem_cons.mp hs with rfl | hs
            · refine Or.inr (Or.inr ?_)
              change max a' t.start ≤ a'
              omega
            · have hse : s = { t with name := none, start := max a' t.start } := by simpa using hs
              subst hse
              exact Or.inr (Or.inl rfl)
        · intro htn
          simp [namedSlices_append, namedSlices_cons_none, htn]
      · subst hR
        injection heq2 with hl2 hi2
        subst hl2; subst hi2
        obtain ⟨f1, f2, f3⟩ := hcR
        refine ⟨P ++ [{ t with stop := max a' t.start },
          { rt with start := ({ t with name := none, start := max a' t.start } : Slice).start }], R', rt.stop,
          by simp, by simp, f3, by omega, ?_, ?_, ?_⟩
        · intro s hs
          rcases List.mem_append.mp hs with hs | hs
          · exact Or.inl hs
          · rcases List.mem_cons.mp hs with rfl | hs
            · refine Or.inr (Or.inr ?_)
              change max a' t.start ≤ a'
              omega
            · have hse : s = { rt with start := ({ t with name := none, start := max a' t.start } : Slice).start } := by simpa using hs
              subst hse
              exact Or.inr (Or.inl hrt)
        · intro s hs
          exact Or.inl (List.mem_cons_of_mem _ hs)
        · intro htn
          simp [namedSlices_append, namedSlices_cons_none, htn, hrt]
    · -- interior carve
      have hlt : min b' t.stop < t.stop := by omega
      rw [removeSlice_interior h1 hlt2 hlt] at hrs
      injection Option.some.inj hrs with hl2 hi2
      subst hl2
      have hi2' : i2 = P.length + 1 := hi2.symm
      subst hi2'
      refine ⟨P ++ [{ t with stop := max a' t.start },
        { t with name := none, start := max a' t.start, stop := min b' t.stop }],
        { t with start := min b' t.stop } :: R, min b' t.stop,
        by simp, by simp, ⟨rfl, by change min b' t.stop < t.stop; omega, hcR⟩,
        le_refl _, ?_, ?_, ?_⟩
      · intro s hs
        rcases List.mem_append.mp hs with hs | hs
        · exact Or.inl hs
        · rcases List.mem_cons.mp hs with rfl | hs
          · refine Or.inr (Or.inr ?_)
            change max a' t.start ≤ a'
            omega
          · have hse : s = { t with name := none, start := max a' t.start, stop := min b' t.stop } := by simpa using hs
            subst hse
            exact Or.inr (Or.inl rfl)
      · intro s hs
        rcases List.mem_cons.mp hs with rfl | hs
        · exact Or.inr (Or.inl rfl)
        · exact Or.inl hs
      · intro htn
        simp [namedSlices_append, namedSlices_cons_none, htn]

/-- Removal loop, pass A: every slice of the output that intersects the
carved range `[a, b)` is unnamed, provided this already held for the
processed prefix. -/
theorem removeLoop_A :
    ∀ (fuel : Nat) {P Rest out : List Slice} {m a b s1 : Nat},
      Chain m Rest s1 →
      removeLoop (P ++ Rest) P.length a b fuel = some out →
      (∀ s ∈ P, s.start < b → a < s.stop → s.name = none) →
      ∀ s ∈ out, s.start < b → a < s.stop → s.name = none := by
  intro fuel
  induction fuel with
  | zero => intro P Rest out m a b s1 _ h _; cases h
  | succ fuel ih =>
    intro P Rest out m a b s1 hch h hP
    rw [removeLoop_succ] at h
    cases Rest with
    | nil =>
      have hnone : (P ++ ([] : List Slice)).get? P.length = none := by
        simp [List.get?_eq_none]
      simp only [hnone] at h
      obtain rfl := Option.some.inj h
      intro s hs
      rw [List.append_nil] at hs
      exact hP s hs
    | cons t R =>
      simp only [get?_append_length] at h
      by_cases hguard : b ≤ t.start
      · rw [if_pos hguard] at h
        obtain rfl := Option.some.inj h
        intro s hs hsb hsa
        rcases List.mem_append.mp hs with hs | hs
        · exact hP s hs hsb hsa
        · obtain ⟨g1, g2, g3⟩ := chain_mem hch hs
          have : t.start = m := hch.1
          omega
      · rw [if_neg hguard] at h
        obtain ⟨e1, e2, hcR⟩ := hch
        cases hrs : removeSlice (P ++ t :: R) P.length (max a t.start) (min b t.stop) with
        | none => rw [hrs] at h; cases h
        | some li =>
          obtain ⟨l2, i2⟩ := li
          simp only [hrs] at h
          obtain ⟨P2, Rest2, m2, hl2, hi2, hch2, hm2, hP2, hR2, _⟩ :=
            removeSlice_step e1 e2 hcR hrs
          subst hl2
          rw [hi2] at h
          refine ih hch2 h ?_
          intro s hs hsb hsa
          rcases hP2 s hs with hsP | hn | hstop
          · exact hP s hsP hsb hsa
          · exact hn
          · omega

/-- Removal loop, pass B: when every slice that intersects the carved range
`[a, b)` is already unnamed and the first unprocessed slice reaches past `a`,
the loop leaves the named slices untouched. -/
theorem removeLoop_B :
    ∀ (fuel : Nat) {P Rest out : List Slice} {m a b s1 : Nat},
      Chain m Rest s1 →
      removeLoop (P ++ Rest) P.length a b fuel = some out →
      (∀ s ∈ P ++ Rest, s.start < b → a < s.stop → s.name = none) →
      (∀ x, Rest.head? = some x → a < x.stop) →
      namedSlices out = namedSlices (P ++ Rest) := by
  intro fuel
  induction fuel with
  | zero => intro P Rest out m a b s1 _ h _ _; cases h
  | succ fuel ih =>
    intro P Rest out m a b s1 hch h hall hhd
    rw [removeLoop_succ] at h
    cases Rest with
    | nil =>
      have hnone : (P ++ ([] : List Slice)).get? P.length = none := by
        simp [List.get?_eq_none]
      simp only [hnone] at h
      obtain rfl := Option.some.inj h
      rfl
    | cons t R =>
      simp only [get?_append_length] at h
      by_cases hguard : b ≤ t.start
      · rw [if_pos hguard] at h
        obtain rfl := Option.some.inj h
        rfl
      · rw [if_neg hguard] at h
        obtain ⟨e1, e2, hcR⟩ := hch
        cases hrs : removeSlice (P ++ t :: R) P.length (max a t.start) (min b t.stop) with
        | none => rw [hrs] at h; cases h
        | some li =>
          obtain ⟨l2, i2⟩ := li
          simp only [hrs] at h
          have hta : a < t.stop := hhd t rfl
          have htn : t.name = none :=
            hall t (by simp) (lt_of_not_le hguard) hta
          obtain ⟨tg, hget, hcv, g2, g3⟩ := removeSlice_inv hrs
          obtain ⟨P2, Rest2, m2, hl2, hi2, hch2, hm2, hP2, hR2, hpres⟩ :=
            removeSlice_step e1 e2 hcR hrs
          subst hl2
          rw [hi2] at h
          have hrec : namedSlices out = namedSlices (P2 ++ Rest2) := by
            refine ih hch2 h ?_ ?_
            · intro s hs hsb hsa
              rcases List.mem_append.mp hs with hs | hs
              · rcases hP2 s hs with hsP | hn | hstop
                · exact hall s (List.mem_append.mpr (Or.inl hsP)) hsb hsa
                · exact hn
                · omega
              · rcases hR2 s hs with hsR | hn | hn
                · exact hall s (by simp [hsR]) hsb hsa
                · rw [hn, htn]
                · exact hn
            · intro x hx
              have hxm : x ∈ Rest2 := by
                cases Rest2 with
                | nil => cases hx
                | cons y Y => obtain rfl := Option.some.inj hx; simp
              obtain ⟨g1, g2', g3'⟩ := chain_mem hch2 hxm
              have haw : a ≤ max a t.start := le_max_left _ _
              omega
          rw [hrec, hpres htn]

/-! ### Provenance lemmas for `remove` (claim C10) -/

theorem provFrom_refl {orig : List Slice} {s : Slice} (h : s ∈ orig) :
    ProvFrom orig s :=
  ⟨s, h, rfl, rfl, by
    cases hn : s.name with
    | none => exact Or.inl rfl
    | some n => exact Or.inr ⟨rfl, le_refl _, le_refl _⟩⟩

theorem provFrom_trans {orig l : List Slice} {s : Slice}
    (hl : ∀ x ∈ l, ProvFrom orig x) (hs : ProvFrom l s) : ProvFrom orig s := by
  obtain ⟨o, ho, e1, e2, hcl⟩ := hs
  obtain ⟨o2, ho2, f1, f2, hcl2⟩ := hl o ho
  refine ⟨o2, ho2, e1.trans f1, e2.trans f2, ?_⟩
  rcases hcl with hn | ⟨hn, ha, hb⟩
  · exact Or.inl hn
  · rcases hcl2 with hn2 | ⟨hn2, ha2, hb2⟩
    · exact Or.inl (hn.trans hn2)
    · exact Or.inr ⟨hn.trans hn2, le_trans ha2 ha, le_trans hb hb2⟩

theorem mem_insertAt {l : List Slice} {i : Nat} {x s : Slice} :
    s ∈ insertAt l i x → s ∈ l ∨ s = x := by
  induction l generalizing i with
  | nil =>
    intro h
    cases i with
    | zero => simp only [insertAt, List.mem_singleton] at h; exact Or.inr h
    | succ i => simp only [insertAt, List.mem_singleton] at h; exact Or.inr h
  | cons a l ih =>
    intro h
    cases i with
    | zero =>
      rcases List.mem_cons.mp h with rfl | h
      · exact Or.inr rfl
      · exact Or.inl h
    | succ i =>
      rcases List.mem_cons.mp h with rfl | h
      · exact Or.inl (List.mem_cons_self _ _)
      · rcases ih h with h | h
        · exact Or.inl (List.mem_cons_of_mem _ h)
        · exact Or.inr h

theorem mergeLeft_prov {l l2 : List Slice} {idx i2 : Nat}
    (h : mergeLeft l idx = some (l2, i2)) : ∀ s ∈ l2, ProvFrom l s := by
  rw [mergeLeft] at h
  cases hg : l.get? idx with
  | none => rw [hg] at h; cases h
  | some cur =>
    simp only [hg] at h
    by_cases hn : cur.name.isSome
    · rw [if_pos hn] at h; cases h
    · rw [if_neg hn] at h
      by_cases hi : 0 < idx
      · rw [if_pos hi] at h
        cases hgl : l.get? (idx - 1) with
        | none => rw [hgl] at h; cases h
        | some left =>
          simp only [hgl] at h
          by_cases hln : left.name.isSome
          · rw [if_pos hln] at h
            obtain ⟨rfl, rfl⟩ := Prod.mk.injEq _ _ _ _ ▸ Option.some.inj h
            exact fun s hs => provFrom_refl hs
          · rw [if_neg hln] at h
            obtain ⟨h1, h2⟩ := Prod.mk.injEq _ _ _ _ ▸ Option.some.inj h
            subst h1
            intro s hs
            have hs2 := List.mem_of_mem_eraseIdx hs
            rcases List.mem_or_eq_of_mem_set hs2 with hs3 | rfl
            · exact provFrom_refl hs3
            · refine ⟨left, List.get?_mem hgl, rfl, rfl, Or.inl ?_⟩
              simpa using Option.not_isSome_iff_eq_none.mp hln
      · rw [if_neg hi] at h
        obtain ⟨rfl, rfl⟩ := Prod.mk.injEq _ _ _ _ ▸ Option.some.inj h
        exact fun s hs => provFrom_refl hs

theorem mergeRight_prov {l l2 : List Slice} {idx i2 : Nat}
    (h : mergeRight l idx = some (l2, i2)) : ∀ s ∈ l2, ProvFrom l s := by
  rw [mergeRight] at h
  cases hg : l.get? idx with
  | none => rw [hg] at h; cases h
  | some cur =>
    simp only [hg] at h
    by_cases hn : cur.name.isSome
    · rw [if_pos hn] at h; cases h
    · rw [if_neg hn] at h
      cases hgr : l.get? (idx + 1) with
      | none =>
        rw [hgr] at h
        obtain ⟨rfl, rfl⟩ := Prod.mk.injEq _ _ _ _ ▸ Option.some.inj h
        exact fun s hs => provFrom_refl hs
      | some right =>
        simp only [hgr] at h
        by_cases hrn : right.name.isSome
        · rw [if_pos hrn] at h
          obtain ⟨rfl, rfl⟩ := Prod.mk.injEq _ _ _ _ ▸ Option.some.inj h
          exact fun s hs => provFrom_refl hs
        · rw [if_neg hrn] at h
          obtain ⟨h1, h2⟩ := Prod.mk.injEq _ _ _ _ ▸ Option.some.inj h
          subst h1
          intro s hs
          have hs2 := List.mem_of_mem_eraseIdx hs
          rcases List.mem_or_eq_of_mem_set hs2 with hs3 | rfl
          · exact provFrom_refl hs3
          · refine ⟨right, List.get?_mem hgr, rfl, rfl, Or.inl ?_⟩
            simpa using Option.not_isSome_iff_eq_none.mp hrn

theorem removeSlice_prov {l l2 : List Slice} {idx a' b' i2 : Nat}
    (h : removeSlice l idx a' b' = some (l2, i2)) : ∀ s ∈ l2, ProvFrom l s := by
  rw [removeSlice] at h
  cases hg : l.get? idx with
  | none => rw [hg] at h; cases h
  | some t =>
    simp only [hg] at h
    by_cases g1 : ¬ a' < b'
    · rw [if_pos g1] at h; cases h
    rw [if_neg g1] at h
    by_cases g2 : ¬ t.start ≤ a'
    · rw [if_pos g2] at h; cases h
    rw [if_neg g2] at h
    by_cases g3 : ¬ b' ≤ t.stop
    · rw [if_pos g3] at h; cases h
    rw [if_neg g3] at h
    have htm : t ∈ l := List.get?_mem hg
    have hsetProv : ∀ (x : Slice), x.«section» = t.«section» → x.tags = t.tags →
        (x.name = none ∨ (x.name = t.name ∧ t.start ≤ x.start ∧ x.stop ≤ t.stop)) →
        ProvFrom l x := fun x e1 e2 hcl => ⟨t, htm, e1, e2, hcl⟩
    by_cases c1 : t.start = a' ∧ t.stop = b'
    · rw [if_pos c1] at h
      cases hml : mergeLeft (l.set idx { t with name := none }) idx with
      | none => rw [hml] at h; cases h
      | some li =>
        obtain ⟨l1, i1⟩ := li
        simp only [hml] at h
        intro s hs
        refine provFrom_trans ?_ (provFrom_trans (mergeLeft_prov hml) (mergeRight_prov h s hs))
        intro y hy
        rcases List.mem_or_eq_of_mem_set hy with hy | rfl
        · exact provFrom_refl hy
        · exact hsetProv _ rfl rfl (Or.inl rfl)
    · rw [if_neg c1] at h
      by_cases c2 : t.start = a'
      · rw [if_pos c2] at h
        intro s hs
        refine provFrom_trans ?_ (mergeLeft_prov h s hs)
        intro y hy
        rcases mem_insertAt hy with hy | rfl
        · rcases List.mem_or_eq_of_mem_set hy with hy | rfl
          · exact provFrom_refl hy
          · exact hsetProv _ rfl rfl (Or.inl rfl)
        · exact hsetProv _ rfl rfl (Or.inr ⟨rfl, by change t.start ≤ b'; omega, le_refl _⟩)
      · rw [if_neg c2] at h
        by_cases c3 : t.stop = b'
        · rw [if_pos c3] at h
          intro s hs
          refine provFrom_trans ?_ (mergeRight_prov h s hs)
          intro y hy
          rcases mem_insertAt hy with hy | rfl
          · rcases List.mem_or_eq_of_mem_set hy with hy | rfl
            · exact provFrom_refl hy
            · exact hsetProv _ rfl rfl (Or.inr ⟨rfl, le_refl _, by change a' ≤ t.stop; omega⟩)
          · exact hsetProv _ rfl rfl (Or.inl rfl)
        · rw [if_neg c3] at h
          obtain ⟨h1, h2⟩ := Prod.mk.injEq _ _ _ _ ▸ Option.some.inj h
          subst h1
          intro s hs
          rcases mem_insertAt hs with hs | rfl
          · rcases mem_insertAt hs with hs | rfl
            · rcases List.mem_or_eq_of_mem_set hs with hs | rfl
              · exact provFrom_refl hs
              · exact hsetProv _ rfl rfl (Or.inr ⟨rfl, le_refl _, by change a' ≤ t.stop; omega⟩)
            · exact hsetProv _ rfl rfl (Or.inl rfl)
          · exact hsetProv _ rfl rfl (Or.inr ⟨rfl, by change t.start ≤ b'; omega, le_refl _⟩)

theorem removeLoop_prov {a b : Nat} :
    ∀ (fuel : Nat) {l : List Slice} {idx : Nat} {out : List Slice},
      removeLoop l idx a b fuel = some out → ∀ s ∈ out, ProvFrom l s := by
  intro fuel
  induction fuel with
  | zero => intro l idx out h; cases h
  | succ fuel ih =>
    intro l idx out h
    rw [removeLoop_succ] at h
    cases hg : l.get? idx with
    | none =>
      rw [hg] at h
      obtain rfl := Option.some.inj h
      exact fun s hs => provFrom_refl hs
    | some target =>
      simp only [hg] at h
      by_cases hguard : b ≤ target.start
      · rw [if_pos hguard] at h
        obtain rfl := Option.some.inj h
        exact fun s hs => provFrom_refl hs
      · rw [if_neg hguard] at h
        cases hrs : removeSlice l idx (max a target.start) (min b target.stop) with
        | none => rw [hrs] at h; cases h
        | some li =>
          obtain ⟨l2, i2⟩ := li
          simp only [hrs] at h
          exact fun s hs => provFrom_trans (removeSlice_prov hrs) (ih h s hs)

/-! ### `remove` and named slices (claim C4) -/

theorem remove_names {t t' : SliceTable} {a b : Nat} (hInv : ChainInv t)
    (h : t.remove a b = some t') :
    ∀ s ∈ t'.slices, s.start < min b t.stop → max a t.start < s.stop →
      s.name = none := by
  rw [SliceTable.remove] at h
  cases hf : t.find (max a t.start) with
  | none => rw [hf] at h; cases h
  | some si =>
    obtain ⟨s0, idx⟩ := si
    simp only [hf] at h
    cases hl : removeLoop t.slices idx (max a t.start) (min b t.stop)
        (t.slices.length + min b t.stop + 1) with
    | none => rw [hl] at h; cases h
    | some l =>
      simp only [hl] at h
      obtain rfl := Option.some.inj h
      have hf' : findAux t.slices (max a t.start) 0 = some (s0, idx) := hf
      obtain ⟨P, R, hsl, hidx, hc1, hc2, hPnc⟩ := findAux_some hf'
      have hidx' : idx = P.length := by omega
      have hInv' : Chain t.start (P ++ s0 :: R) t.stop := by
        rw [← hsl]; exact hInv
      obtain ⟨m, hcP, hcR⟩ := chain_append_inv hInv'
      rw [hsl, hidx'] at hl
      refine removeLoop_A _ hcR hl ?_
      intro p hp hpb hpa
      obtain ⟨g1, g2, g3⟩ := chain_mem hcP hp
      have hs0 : s0.start = m := hcR.1
      omega

theorem remove_preserve_named {t t' : SliceTable} {a b : Nat} (hInv : ChainInv t)
    (hall : ∀ s ∈ t.slices, s.start < min b t.stop → max a t.start < s.stop →
      s.name = none)
    (h : t.remove a b = some t') :
    namedSlices t'.slices = namedSlices t.slices := by
  rw [SliceTable.remove] at h
  cases hf : t.find (max a t.start) with
  | none => rw [hf] at h; cases h
  | some si =>
    obtain ⟨s0, idx⟩ := si
    simp only [hf] at h
    cases hl : removeLoop t.slices idx (max a t.start) (min b t.stop)
        (t.slices.length + min b t.stop + 1) with
    | none => rw [hl] at h; cases h
    | some l =>
      simp only [hl] at h
      obtain rfl := Option.some.inj h
      have hf' : findAux t.slices (max a t.start) 0 = some (s0, idx) := hf
      obtain ⟨P, R, hsl, hidx, hc1, hc2, hPnc⟩ := findAux_some hf'
      have hidx' : idx = P.length := by omega
      have hInv' : Chain t.start (P ++ s0 :: R) t.stop := by
        rw [← hsl]; exact hInv
      obtain ⟨m, hcP, hcR⟩ := chain_append_inv hInv'
      rw [hsl, hidx'] at hl
      have hres := removeLoop_B _ hcR hl (by rw [← hsl]; exact hall)
        (by intro x hx; obtain rfl := Option.some.inj hx; exact hc2)
      rw [hres, hsl]

/-! ### Provenance and chaining for `slice` (claim C7) -/

theorem mem_pySet {l l2 : List Slice} {i : Int} {x y : Slice}
    (h : pySet l i x = some l2) (hy : y ∈ l2) : y ∈ l ∨ y = x := by
  rw [pySet] at h
  by_cases h0 : 0 ≤ i
  · rw [if_pos h0] at h
    by_cases h1 : i.toNat < l.length
    · rw [if_pos h1] at h
      obtain rfl := Option.some.inj h
      exact List.mem_or_eq_of_mem_set hy
    · rw [if_neg h1] at h; cases h
  · rw [if_neg h0] at h
    by_cases h1 : (-i).toNat ≤ l.length
    · rw [if_pos h1] at h
      obtain rfl := Option.some.inj h
      exact List.mem_or_eq_of_mem_set hy
    · rw [if_neg h1] at h; cases h

theorem mem_pyInsert {l : List Slice} {i : Int} {x y : Slice}
    (hy : y ∈ pyInsert l i x) : y ∈ l ∨ y = x := by
  rw [pyInsert] at hy
  by_cases h0 : 0 ≤ i
  · rw [if_pos h0] at hy
    exact mem_insertAt hy
  · rw [if_neg h0] at hy
    exact mem_insertAt hy

/-- Every slice of a successful `add`'s result is an original slice, the
added slice itself, or a synthesised unnamed leftover gap. -/
theorem add_prov {t t' : SliceTable} {s : Slice} (h : t.add s = some t') :
    ∀ x ∈ t'.slices, x ∈ t.slices ∨ x = s ∨ x.name = none := by
  rw [SliceTable.add] at h
  by_cases g1 : ¬ s.start < s.stop
  · rw [if_pos g1] at h; cases h
  rw [if_neg g1] at h
  by_cases g2 : ¬ (t.start ≤ s.start ∧ s.stop ≤ t.stop)
  · rw [if_pos g2] at h; cases h
  rw [if_neg g2] at h
  simp only [] at h
  cases hpg : pyGet t.slices ((bisect t.slices s : Int) - 1) with
  | none => rw [hpg] at h; cases h
  | some target =>
    simp only [hpg] at h
    by_cases g3 : ¬ (target.name = none ∧ target.start ≤ s.start ∧ s.stop ≤ target.stop)
    · rw [if_pos g3] at h; cases h
    rw [if_neg g3] at h
    cases hps : pySet
        (if target.start < s.start then
          (pyInsert t.slices ((bisect t.slices s : Int) - 1)
            ⟨target.start, s.start, none, none, []⟩, (bisect t.slices s : Int) - 1 + 1)
        else (t.slices, (bisect t.slices s : Int) - 1)).1
        (if target.start < s.start then
          (pyInsert t.slices ((bisect t.slices s : Int) - 1)
            ⟨target.start, s.start, none, none, []⟩, (bisect t.slices s : Int) - 1 + 1)
        else (t.slices, (bisect t.slices s : Int) - 1)).2 s with
    | none => rw [hps] at h; cases h
    | some slices2 =>
      simp only [hps] at h
      obtain rfl := Option.some.inj h
      intro x hx
      have hx2 : x ∈ slices2 ∨ x.name = none := by
        by_cases g4 : s.stop < target.stop
        · rw [if_pos g4] at hx
          rcases mem_pyInsert hx with hx | rfl
          · exact Or.inl hx
          · exact Or.inr rfl
        · rw [if_neg g4] at hx
          exact Or.inl hx
      rcases hx2 with hx2 | hn
      · rcases mem_pySet hps hx2 with hx3 | rfl
        · by_cases g5 : target.start < s.start
          · rw [if_pos g5] at hx3
            rcases mem_pyInsert hx3 with hx4 | rfl
            · exact Or.inl hx4
            · exact Or.inr (Or.inr rfl)
          · rw [if_neg g5] at hx3
            exact Or.inl hx3
        · exact Or.inr (Or.inl rfl)
      · exact Or.inr (Or.inr hn)

theorem sliceLoop_cons (s : Slice) (rest : List Slice) (start stop : Nat)
    (acc : SliceTable) :
    sliceLoop (s :: rest) start stop acc =
      if stop ≤ ((if s.start < start then { s with start := start } else s) : Slice).start
      then some acc
      else if stop < ((if s.start < start then { s with start := start } else s) : Slice).stop
      then acc.add { (if s.start < start then { s with start := start } else s) with stop := stop }
      else
        match acc.add (if s.start < start then { s with start := start } else s) with
        | none => none
        | some acc2 => sliceLoop rest start stop acc2 := rfl

theorem sliceLoop_chain :
    ∀ (rest : List Slice) {start stop : Nat} {acc t' : SliceTable},
      ChainInv acc → sliceLoop rest start stop acc = some t' →
      ChainInv t' ∧ t'.start = acc.start ∧ t'.stop = acc.stop := by
  intro rest
  induction rest with
  | nil =>
    intro start stop acc t' hInv h
    obtain rfl := Option.some.inj h
    exact ⟨hInv, rfl, rfl⟩
  | cons s rest ih =>
    intro start stop acc t' hInv h
    rw [sliceLoop_cons] at h
    generalize hs1 : (if s.start < start then { s with start := start } else s) = s1 at h
    by_cases hb1 : stop ≤ s1.start
    · rw [if_pos hb1] at h
      obtain rfl := Option.some.inj h
      exact ⟨hInv, rfl, rfl⟩
    rw [if_neg hb1] at h
    by_cases hb2 : stop < s1.stop
    · rw [if_pos hb2] at h
      exact add_chain hInv h
    · rw [if_neg hb2] at h
      cases hadd : acc.add s1 with
      | none => rw [hadd] at h; cases h
      | some acc2 =>
        simp only [hadd] at h
        obtain ⟨hc2, he1, he2⟩ := add_chain hInv hadd
        obtain ⟨hc3, hf1, hf2⟩ := ih hc2 h
        exact ⟨hc3, hf1.trans he1, hf2.trans he2⟩

theorem sliceLoop_prov :
    ∀ (rest : List Slice) {start stop : Nat} {acc t' : SliceTable},
      sliceLoop rest start stop acc = some t' →
      ∀ x ∈ t'.slices, x ∈ acc.slices ∨ x.name = none ∨
        ∃ o ∈ rest, o.name = x.name ∧ o.«section» = x.«section» ∧ o.tags = x.tags ∧
          x.start = max o.start start ∧ x.stop = min o.stop stop := by
  intro rest
  induction rest with
  | nil =>
    intro start stop acc t' h x hx
    obtain rfl := Option.some.inj h
    exact Or.inl hx
  | cons s rest ih =>
    intro start stop acc t' h
    rw [sliceLoop_cons] at h
    generalize hs1 : (if s.start < start then { s with start := start } else s) = s1 at h
    have hf1 : s1.name = s.name := by
      rw [← hs1]; by_cases hss : s.start < start <;> simp [hss]
    have hf2 : s1.«section» = s.«section» := by
      rw [← hs1]; by_cases hss : s.start < start <;> simp [hss]
    have hf3 : s1.tags = s.tags := by
      rw [← hs1]; by_cases hss : s.start < start <;> simp [hss]
    have hf4 : s1.start = max s.start start := by
      rw [← hs1]
      by_cases hss : s.start < start <;> simp [hss] <;> omega
    have hf5 : s1.stop = s.stop := by
      rw [← hs1]; by_cases hss : s.start < start <;> simp [hss]
    by_cases hb1 : stop ≤ s1.start
    · rw [if_pos hb1] at h
      obtain rfl := Option.some.inj h
      intro x hx
      exact Or.inl hx
    rw [if_neg hb1] at h
    by_cases hb2 : stop < s1.stop
    · rw [if_pos hb2] at h
      intro x hx
      rcases add_prov h x hx with hx | rfl | hn
      · exact Or.inl hx
      · refine Or.inr (Or.inr ⟨s, List.mem_cons_self _ _, ?_, ?_, ?_, ?_, ?_⟩)
        · exact (hf1).symm
        · exact (hf2).symm
        · exact (hf3).symm
        · exact hf4
        · change stop = min s.stop stop
          omega
      · exact Or.inr (Or.inl hn)
    · rw [if_neg hb2] at h
      cases hadd : acc.add s1 with
      | none => rw [hadd] at h; cases h
      | some acc2 =>
        simp only [hadd] at h
        intro x hx
        rcases ih h x hx with hx2 | hn | ⟨o, ho, k1, k2, k3, k4, k5⟩
        · rcases add_prov hadd x hx2 with hx3 | rfl | hn
          · exact Or.inl hx3
          · refine Or.inr (Or.inr ⟨s, List.mem_cons_self _ _, hf1.symm, hf2.symm,
              hf3.symm, hf4, ?_⟩)
            omega
          · exact Or.inr (Or.inl hn)
        · exact Or.inr (Or.inl hn)
        · exact Or.inr (Or.inr ⟨o, List.mem_cons_of_mem _ ho, k1, k2, k3, k4, k5⟩)

/-! ### Hex codec round trip (claim C6) -/

theorem hexVal_hexDigitChar {d : Nat} (hd : d < 16) :
    hexVal (hexDigitChar d) = some d := by
  have h16 : ∀ e : Fin 16, hexVal (hexDigitChar e.val) = some e.val := by decide
  exact h16 ⟨d, hd⟩

theorem parseHexList_append (xs ys : List Char) (acc : Nat) :
    parseHexList (xs ++ ys) acc =
      match parseHexList xs acc with
      | none => none
      | some a => parseHexList ys a := by
  induction xs generalizing acc with
  | nil => rfl
  | cons c cs ih =>
    simp only [List.cons_append, parseHexList]
    cases hexVal c with
    | none => rfl
    | some d => exact ih _

theorem parseHex_toHexFuel :
    ∀ (fuel n acc : Nat), n ≤ fuel →
      parseHexList (toHexDigitsFuel fuel n) acc =
        some (acc * 16 ^ (toHexDigitsFuel fuel n).length + n) := by
  intro fuel
  induction fuel with
  | zero =>
    intro n acc hn
    obtain rfl : n = 0 := by omega
    simp [toHexDigitsFuel, parseHexList]
  | succ fuel ih =>
    intro n acc hn
    by_cases h0 : n = 0
    · subst h0
      simp [toHexDigitsFuel, parseHexList]
    · have hdiv : n / 16 ≤ fuel := by
        have := Nat.div_lt_self (Nat.pos_of_ne_zero h0) (by omega : 1 < 16)
        omega
      have hrec := ih (n / 16) acc hdiv
      simp only [toHexDigitsFuel, if_neg h0]
      rw [parseHexList_append, hrec]
      simp only [parseHexList, hexVal_hexDigitChar (Nat.mod_lt _ (by omega)),
        List.length_append, List.length_singleton]
      congr 1
      have hmod := Nat.div_add_mod n 16
      rw [pow_succ]
      ring_nf
      omega

theorem pyIntHex_pyHex (n : Nat) : pyIntHex (pyHex n) = some n := by
  by_cases h0 : n = 0
  · subst h0
    rfl
  · have hdig := parseHex_toHexFuel n n 0 (le_refl n)
    cases hD : toHexDigitsFuel n n with
    | nil =>
      rw [hD] at hdig
      simp [parseHexList] at hdig
      omega
    | cons c cs =>
      rw [hD] at hdig
      have hph : pyHex n = String.mk ('0' :: 'x' :: c :: cs) := by
        rw [pyHex, if_neg h0, toHexDigits, hD]
      have hred : pyIntHex (String.mk ('0' :: 'x' :: c :: cs)) =
          parseHexList (c :: cs) 0 := rfl
      rw [hph, hred]
      simpa using hdig

theorem dropWhile_eq_self_of_not {l : List Char}
    (h : ∀ c ∈ l, isSpaceChar c = false) : l.dropWhile isSpaceChar = l := by
  cases l with
  | nil => rfl
  | cons c cs =>
    rw [List.dropWhile_cons_of_neg]
    simp [h c (List.mem_cons_self _ _)]

theorem pyStrip_of_not_space {l : List Char}
    (h : ∀ c ∈ l, isSpaceChar c = false) : pyStrip (String.mk l) = String.mk l := by
  rw [pyStrip]
  have h1 : (String.mk l).data = l := rfl
  rw [h1, dropWhile_eq_self_of_not h, dropWhile_eq_self_of_not
    (fun c hc => h c (List.mem_reverse.mp hc)), List.reverse_reverse]

theorem toHexDigitsFuel_chars :
    ∀ (fuel n : Nat), ∀ c ∈ toHexDigitsFuel fuel n, ∃ d, d < 16 ∧ c = hexDigitChar d := by
  intro fuel
  induction fuel with
  | zero => intro n c hc; cases hc
  | succ fuel ih =>
    intro n c hc
    rw [toHexDigitsFuel] at hc
    by_cases h0 : n = 0
    · rw [if_pos h0] at hc; cases hc
    · rw [if_neg h0] at hc
      rcases List.mem_append.mp hc with hc | hc
      · exact ih _ c hc
      · have : c = hexDigitChar (n % 16) := by simpa using hc
        exact ⟨n % 16, Nat.mod_lt _ (by omega), this⟩

theorem isSpaceChar_hexDigitChar {d : Nat} (hd : d < 16) :
    isSpaceChar (hexDigitChar d) = false := by
  have h16 : ∀ e : Fin 16, isSpaceChar (hexDigitChar e.val) = false := by decide
  exact h16 ⟨d, hd⟩

theorem pyStrip_pyHex (n : Nat) : pyStrip (pyHex n) = pyHex n := by
  rw [pyHex]
  refine pyStrip_of_not_space ?_
  intro c hc
  rcases List.mem_cons.mp hc with rfl | hc
  · rfl
  rcases List.mem_cons.mp hc with rfl | hc
  · rfl
  by_cases h0 : n = 0
  · rw [if_pos h0] at hc
    have : c = '0' := by simpa using hc
    rw [this]; rfl
  · rw [if_neg h0] at hc
    obtain ⟨d, hd, rfl⟩ := toHexDigitsFuel_chars n n c (by rwa [toHexDigits] at hc)
    exact isSpaceChar_hexDigitChar hd

theorem pyHex_ne_empty (n : Nat) : pyHex n ≠ "" := by
  intro h
  have : (pyHex n).data = "".data := by rw [h]
  simp [pyHex] at this

/-! ### String suffix disambiguation (claim C6) -/

theorem append_ne_of_last2 {x y s t : List Char} (hs : 2 ≤ s.length)
    (ht : 2 ≤ t.length) (hne : s.drop (s.length - 2) ≠ t.drop (t.length - 2)) :
    x ++ s ≠ y ++ t := by
  intro he
  have hlen : x.length + s.length = y.length + t.length := by
    have := congrArg List.length he
    simpa using this
  have h1 : (x ++ s).drop (x.length + (s.length - 2)) = s.drop (s.length - 2) :=
    List.drop_append _
  have h2 : (y ++ t).drop (y.length + (t.length - 2)) = t.drop (t.length - 2) :=
    List.drop_append _
  have h3 : x.length + (s.length - 2) = y.length + (t.length - 2) := by omega
  rw [he, h3, h2] at h1
  exact hne h1.symm

theorem strAppend_ne_of_last2 {a b : String} (x y : String)
    (hs : 2 ≤ a.data.length) (ht : 2 ≤ b.data.length)
    (hne : a.data.drop (a.data.length - 2) ≠ b.data.drop (b.data.length - 2)) :
    x ++ a ≠ y ++ b := by
  intro he
  have hd : (x ++ a).data = (y ++ b).data := by rw [he]
  rw [String.data_append, String.data_append] at hd
  exact append_ne_of_last2 hs ht hne hd

/-! ### Reader header round trip (claim C6) -/

theorem sEndsWith_append (x suf : String) : sEndsWith (x ++ suf) suf = true := by
  rw [sEndsWith, String.data_append, List.isSuffixOf_iff_suffix]
  exact List.suffix_append _ _

theorem sRemoveSuffix_append (x suf : String) : sRemoveSuffix (x ++ suf) suf = x := by
  rw [sRemoveSuffix, if_pos (sEndsWith_append x suf), String.data_append]
  have h1 : x.data.length + suf.data.length - suf.data.length = x.data.length := by omega
  rw [List.length_append, h1, List.take_left]

theorem parseSectionPairs_flatMap (S : List String) :
    parseSectionPairs (S.flatMap (fun sec => [sec ++ "Start", sec ++ "End"])) =
      some S := by
  induction S with
  | nil => rfl
  | cons sec rest ih =>
    have hflat : (sec :: rest).flatMap (fun sec => [sec ++ "Start", sec ++ "End"]) =
        (sec ++ "Start") :: (sec ++ "End") ::
          rest.flatMap (fun sec => [sec ++ "Start", sec ++ "End"]) := by
      simp [List.flatMap_cons]
    rw [hflat, parseSectionPairs]
    rw [if_pos ⟨sEndsWith_append sec "Start", sEndsWith_append sec "End"⟩]
    rw [sRemoveSuffix_append, sRemoveSuffix_append, if_pos rfl, ih]
    rfl

theorem length_flatMap_pairs (S : List String) :
    (S.flatMap (fun sec => [sec ++ "Start", sec ++ "End"])).length = 2 * S.length := by
  induction S with
  | nil => rfl
  | cons sec rest ih =>
    simp only [List.flatMap_cons, List.length_append, List.length_cons, ih,
      List.length_nil]
    omega

theorem readerInit_writerCols {S : List String} (hS : S ≠ []) :
    readerInit (writerCols S) = some ⟨["enabled", "strip"], S, 3 + 2 * S.length⟩ := by
  have hidx : idxOfStr (writerCols S) "name" = some 2 := by
    rw [writerCols]
    simp [idxOfStr]
  rw [readerInit, hidx]
  have htake : (writerCols S).take 2 = ["enabled", "strip"] := by
    rw [writerCols]; rfl
  have hdrop : (writerCols S).drop 3 =
      S.flatMap (fun sec => [sec ++ "Start", sec ++ "End"]) := by
    rw [writerCols]; rfl
  simp only [htake, hdrop]
  have hlen := length_flatMap_pairs S
  have hne : ¬ ((S.flatMap (fun sec => [sec ++ "Start", sec ++ "End"])).length = 0 ∨
      (S.flatMap (fun sec => [sec ++ "Start", sec ++ "End"])).length % 2 ≠ 0) := by
    rw [hlen]
    have : S.length ≠ 0 := fun h => hS (List.eq_nil_of_length_eq_zero h)
    omega
  rw [if_neg hne, parseSectionPairs_flatMap]
  have hcl : (writerCols S).length = 3 + 2 * S.length := by
    rw [writerCols, List.length_append, hlen]
    rfl
  rw [hcl]

/-! ### Association list lemmas (claim C6) -/

theorem assocGet?_assocSet_self {α : Type} (e : List (String × α)) (k : String) (v : α) :
    assocGet? (assocSet e k v) k = some v := by
  induction e with
  | nil => simp [assocSet, assocGet?]
  | cons p rest ih =>
    obtain ⟨k', v'⟩ := p
    rw [assocSet]
    by_cases hk : k' = k
    · rw [if_pos hk, assocGet?, if_pos rfl]
    · rw [if_neg hk, assocGet?, if_neg hk, ih]

theorem assocGet?_assocSet_ne {α : Type} {k' k : String} (e : List (String × α)) (v : α)
    (h : k' ≠ k) : assocGet? (assocSet e k' v) k = assocGet? e k := by
  induction e with
  | nil => simp [assocSet, assocGet?, h]
  | cons p rest ih =>
    obtain ⟨k0, v0⟩ := p
    rw [assocSet]
    by_cases hk : k0 = k'
    · subst hk
      rw [if_pos rfl, assocGet?, if_neg h, assocGet?, if_neg h]
    · rw [if_neg hk, assocGet?, assocGet?]
      by_cases hk2 : k0 = k
      · rw [if_pos hk2, if_pos hk2]
      · rw [if_neg hk2, if_neg hk2, ih]

theorem mem_assocSet {α : Type} {e : List (String × α)} {k : String} {v : α}
    {p : String × α} (h : p ∈ assocSet e k v) : p ∈ e ∨ p.1 = k := by
  induction e with
  | nil =>
    simp only [assocSet, List.mem_singleton] at h
    right
    rw [h]
  | cons q rest ih =>
    obtain ⟨k0, v0⟩ := q
    rw [assocSet] at h
    by_cases hk : k0 = k
    · rw [if_pos hk] at h
      rcases List.mem_cons.mp h with rfl | h
      · exact Or.inr rfl
      · exact Or.inl (List.mem_cons_of_mem _ h)
    · rw [if_neg hk] at h
      rcases List.mem_cons.mp h with rfl | h
      · exact Or.inl (List.mem_cons_self _ _)
      · rcases ih h with h | h
        · exact Or.inl (List.mem_cons_of_mem _ h)
        · exact Or.inr h

/-! ### String key disambiguation (claim C6) -/

theorem strAppend_right_cancel {x y s : String} (h : x ++ s = y ++ s) : x = y := by
  have hd := congrArg String.data h
  rw [String.data_append, String.data_append] at hd
  have hxy : x.data = y.data := List.append_left_injective s.data hd
  show String.mk x.data = String.mk y.data
  rw [hxy]

theorem append_lit_ne (x : String) (a w : String) (ha : 2 ≤ a.data.length)
    (hw : 2 ≤ w.data.length)
    (hne : a.data.drop (a.data.length - 2) ≠ w.data.drop (w.data.length - 2)) :
    x ++ a ≠ w := by
  intro h
  exact strAppend_ne_of_last2 x "" ha hw hne (h.trans rfl)

theorem startKey_ne_endKey (x y : String) : x ++ "Start" ≠ y ++ "End" :=
  strAppend_ne_of_last2 x y (by decide) (by decide) (by decide)

theorem startKey_ne_name (x : String) : x ++ "Start" ≠ "name" :=
  append_lit_ne x "Start" "name" (by decide) (by decide) (by decide)

theorem endKey_ne_name (x : String) : x ++ "End" ≠ "name" :=
  append_lit_ne x "End" "name" (by decide) (by decide) (by decide)

theorem startKey_ne_enabled (x : String) : x ++ "Start" ≠ "enabled" :=
  append_lit_ne x "Start" "enabled" (by decide) (by decide) (by decide)

theorem endKey_ne_enabled (x : String) : x ++ "End" ≠ "enabled" :=
  append_lit_ne x "End" "enabled" (by decide) (by decide) (by decide)

theorem startKey_ne_strip (x : String) : x ++ "Start" ≠ "strip" :=
  append_lit_ne x "Start" "strip" (by decide) (by decide) (by decide)

theorem endKey_ne_strip (x : String) : x ++ "End" ≠ "strip" :=
  append_lit_ne x "End" "strip" (by decide) (by decide) (by decide)

/-! ### The writer entry dictionary (claim C6) -/

theorem assocGet?_tagFold (l : List String) (e : List (String × String)) (k : String) :
    assocGet? (l.foldl (fun e tag => assocSet e tag "1") e) k =
      if k ∈ l then some "1" else assocGet? e k := by
  induction l generalizing e with
  | nil => simp
  | cons t l ih =>
    rw [List.foldl_cons, ih]
    by_cases hl : k ∈ l
    · rw [if_pos hl, if_pos (List.mem_cons_of_mem _ hl)]
    · rw [if_neg hl]
      by_cases ht : t = k
      · subst ht
        rw [assocGet?_assocSet_self, if_pos (List.mem_cons_self _ _)]
      · rw [assocGet?_assocSet_ne _ _ ht, if_neg (by simp [hl, Ne.symm ht])]

theorem assocGet?_secFold_ne (l : List Slice) (e : List (String × String)) (k : String)
    (h : ∀ s ∈ l, secStr s ++ "Start" ≠ k ∧ secStr s ++ "End" ≠ k) :
    assocGet? (l.foldl (fun e s =>
      assocSet (assocSet e (secStr s ++ "Start") (pyHex s.start))
        (secStr s ++ "End") (pyHex s.stop)) e) k = assocGet? e k := by
  induction l generalizing e with
  | nil => rfl
  | cons t l ih =>
    rw [List.foldl_cons, ih _ (fun s hs => h s (List.mem_cons_of_mem _ hs)),
      assocGet?_assocSet_ne _ _ (h t (List.mem_cons_self _ _)).2,
      assocGet?_assocSet_ne _ _ (h t (List.mem_cons_self _ _)).1]

theorem assocGet?_secFold_hit {g : List Slice} {s : Slice} (e : List (String × String))
    (hmem : s ∈ g) (huniq : ∀ s' ∈ g, secStr s' = secStr s → s' = s) :
    assocGet? (g.foldl (fun e s =>
      assocSet (assocSet e (secStr s ++ "Start") (pyHex s.start))
        (secStr s ++ "End") (pyHex s.stop)) e) (secStr s ++ "Start") =
      some (pyHex s.start) ∧
    assocGet? (g.foldl (fun e s =>
      assocSet (assocSet e (secStr s ++ "Start") (pyHex s.start))
        (secStr s ++ "End") (pyHex s.stop)) e) (secStr s ++ "End") =
      some (pyHex s.stop) := by
  induction g generalizing e with
  | nil => cases hmem
  | cons t g ih =>
    by_cases hg : s ∈ g
    · exact ih _ hg (fun s' hs' => huniq s' (List.mem_cons_of_mem _ hs'))
    · have hts : t = s := by
        rcases List.mem_cons.mp hmem with h | h
        · exact h.symm
        · exact absurd h hg
      subst hts
      rw [List.foldl_cons]
      have hne : ∀ s' ∈ g, secStr s' ++ "Start" ≠ secStr t ++ "Start" ∧
          secStr s' ++ "End" ≠ secStr t ++ "End" := by
        intro s' hs'
        have hss : secStr s' ≠ secStr t := by
          intro he
          exact hg ((huniq s' (List.mem_cons_of_mem _ hs') he) ▸ hs')
        exact ⟨fun he => hss (strAppend_right_cancel he),
          fun he => hss (strAppend_right_cancel he)⟩
      have hne2 : ∀ s' ∈ g, secStr s' ++ "Start" ≠ secStr t ++ "End" ∧
          secStr s' ++ "End" ≠ secStr t ++ "End" := by
        intro s' hs'
        exact ⟨startKey_ne_endKey _ _, (hne s' hs').2⟩
      have hne3 : ∀ s' ∈ g, secStr s' ++ "Start" ≠ secStr t ++ "Start" ∧
          secStr s' ++ "End" ≠ secStr t ++ "Start" := by
        intro s' hs'
        exact ⟨(hne s' hs').1, fun he => startKey_ne_endKey _ _ he.symm⟩
      constructor
      · rw [assocGet?_secFold_ne _ _ _ hne3,
          assocGet?_assocSet_ne _ _ (fun he => startKey_ne_endKey _ _ he.symm),
          assocGet?_assocSet_self]
      · rw [assocGet?_secFold_ne _ _ _ hne2, assocGet?_assocSet_self]

theorem mem_tagFold {l : List String} {e : List (String × String)}
    {p : String × String} (h : p ∈ l.foldl (fun e tag => assocSet e tag "1") e) :
    p ∈ e ∨ p.1 ∈ l := by
  induction l generalizing e with
  | nil => exact Or.inl h
  | cons t l ih =>
    rw [List.foldl_cons] at h
    rcases ih h with h | h
    · rcases mem_assocSet h with h | h
      · exact Or.inl h
      · exact Or.inr (by simp [h])
    · exact Or.inr (List.mem_cons_of_mem _ h)

theorem mem_secFold {l : List Slice} {e : List (String × String)}
    {p : String × String} (h : p ∈ l.foldl (fun e s =>
      assocSet (assocSet e (secStr s ++ "Start") (pyHex s.start))
        (secStr s ++ "End") (pyHex s.stop)) e) :
    p ∈ e ∨ ∃ s ∈ l, p.1 = secStr s ++ "Start" ∨ p.1 = secStr s ++ "End" := by
  induction l generalizing e with
  | nil => exact Or.inl h
  | cons t l ih =>
    rw [List.foldl_cons] at h
    rcases ih h with h | ⟨s, hs, hk⟩
    · rcases mem_assocSet h with h | h
      · rcases mem_assocSet h with h | h
        · exact Or.inl h
        · exact Or.inr ⟨t, List.mem_cons_self _ _, Or.inl h⟩
      · exact Or.inr ⟨t, List.mem_cons_self _ _, Or.inr h⟩
    · exact Or.inr ⟨s, List.mem_cons_of_mem _ hs, hk⟩

theorem entry_get_name {nm : String} {g : List Slice}
    (htags : ∀ tag ∈ (g.headD ⟨0, 0, none, none, []⟩).tags,
      tag = "enabled" ∨ tag = "strip") :
    assocGet? (entryOfGroup nm g) "name" = some nm := by
  rw [entryOfGroup]
  rw [assocGet?_secFold_ne _ _ _
    (fun s _ => ⟨startKey_ne_name _, endKey_ne_name _⟩)]
  rw [assocGet?_tagFold]
  rw [if_neg (fun hmem => by rcases htags _ hmem with h | h <;> simp at h)]
  rfl

theorem entry_get_tag {nm t : String} {g : List Slice}
    (ht : t = "enabled" ∨ t = "strip") :
    assocGet? (entryOfGroup nm g) t =
      if t ∈ (g.headD ⟨0, 0, none, none, []⟩).tags then some "1" else none := by
  rw [entryOfGroup]
  rw [assocGet?_secFold_ne _ _ _ (fun s _ => by
    rcases ht with rfl | rfl
    · exact ⟨startKey_ne_enabled _, endKey_ne_enabled _⟩
    · exact ⟨startKey_ne_strip _, endKey_ne_strip _⟩)]
  rw [assocGet?_tagFold]
  by_cases hmem : t ∈ (g.headD ⟨0, 0, none, none, []⟩).tags
  · rw [if_pos hmem, if_pos hmem]
  · rw [if_neg hmem, if_neg hmem]
    rcases ht with rfl | rfl <;> rfl

theorem entry_get_hit {nm : String} {g : List Slice} {s : Slice} {sec : String}
    (hmem : s ∈ g) (hsseq : s.«section» = some sec)
    (hsec : ∀ s' ∈ g, ∃ sec', s'.«section» = some sec')
    (hinj : ∀ s' ∈ g, ∀ s'' ∈ g, s'.«section» = s''.«section» → s' = s'') :
    assocGet? (entryOfGroup nm g) (sec ++ "Start") = some (pyHex s.start) ∧
    assocGet? (entryOfGroup nm g) (sec ++ "End") = some (pyHex s.stop) := by
  have hss : secStr s = sec := by rw [secStr, hsseq]
  have huniq : ∀ s' ∈ g, secStr s' = secStr s → s' = s := by
    intro s' hs' he
    obtain ⟨sec', hsec'⟩ := hsec s' hs'
    refine hinj s' hs' s hmem ?_
    rw [hsec', hsseq]
    have : secStr s' = sec' := by rw [secStr, hsec']
    rw [← this, he, hss]
  rw [entryOfGroup, ← hss]
  exact assocGet?_secFold_hit _ hmem huniq

theorem entry_get_miss {nm : String} {g : List Slice} {sec : String}
    (htags : ∀ tag ∈ (g.headD ⟨0, 0, none, none, []⟩).tags,
      tag = "enabled" ∨ tag = "strip")
    (hsec : ∀ s' ∈ g, ∃ sec', s'.«section» = some sec')
    (hmiss : ∀ s ∈ g, s.«section» ≠ some sec) :
    assocGet? (entryOfGroup nm g) (sec ++ "Start") = none ∧
    assocGet? (entryOfGroup nm g) (sec ++ "End") = none := by
  have hkeys : ∀ s ∈ g, secStr s ≠ sec := by
    intro s hs he
    obtain ⟨sec', hsec'⟩ := hsec s hs
    refine hmiss s hs ?_
    rw [hsec']
    have h2 : secStr s = sec' := by rw [secStr, hsec']
    rw [← h2, he]
  constructor
  · rw [entryOfGroup, assocGet?_secFold_ne _ _ _ (fun s hs =>
      ⟨fun he => hkeys s hs (strAppend_right_cancel he),
       fun he => startKey_ne_endKey _ _ he.symm⟩)]
    rw [assocGet?_tagFold, if_neg (fun hmem => by
      rcases htags _ hmem with h | h
      · exact startKey_ne_enabled sec h
      · exact startKey_ne_strip sec h)]
    rw [assocGet?]
    rw [if_neg (fun h => startKey_ne_name sec h.symm)]
    rfl
  · rw [entryOfGroup, assocGet?_secFold_ne _ _ _ (fun s hs =>
      ⟨fun he => startKey_ne_endKey _ _ he,
       fun he => hkeys s hs (strAppend_right_cancel he)⟩)]
    rw [assocGet?_tagFold, if_neg (fun hmem => by
      rcases htags _ hmem with h | h
      · exact endKey_ne_enabled sec h
      · exact endKey_ne_strip sec h)]
    rw [assocGet?]
    rw [if_neg (fun h => endKey_ne_name sec h.symm)]
    rfl

theorem writeRow_cons (S : List String) (nm : String) (s : Slice) (l : List Slice) :
    writeRow S nm (s :: l) =
      if (entryOfGroup nm (s :: l)).all (fun kv => decide (kv.1 ∈ writerCols S)) then
        some ((writerCols S).map
          (fun c => (assocGet? (entryOfGroup nm (s :: l)) c).getD ""))
      else none := rfl

theorem writeRow_eq {S : List String} {nm : String} {g : List Slice}
    (hg : g ≠ [])
    (htags : ∀ tag ∈ (g.headD ⟨0, 0, none, none, []⟩).tags,
      tag = "enabled" ∨ tag = "strip")
    (hsec : ∀ s ∈ g, ∃ sec, s.«section» = some sec ∧ sec ∈ S) :
    writeRow S nm g = some ((writerCols S).map
      (fun c => (assocGet? (entryOfGroup nm g) c).getD "")) := by
  cases g with
  | nil => exact absurd rfl hg
  | cons s0 gt =>
    rw [writeRow_cons]
    have hall : ∀ kv ∈ entryOfGroup nm (s0 :: gt), kv.1 ∈ writerCols S := by
      intro kv hkv
      rw [entryOfGroup] at hkv
      rcases mem_secFold hkv with hkv | ⟨s, hs, hk | hk⟩
      · rcases mem_tagFold hkv with hkv | htag
        · have : kv = ("name", nm) := by simpa using hkv
          rw [this]
          simp [writerCols]
        · rcases htags _ htag with h | h <;> rw [h] <;> simp [writerCols]
      · obtain ⟨sec, hsseq, hsecS⟩ := hsec s hs
        have hss : secStr s = sec := by rw [secStr, hsseq]
        rw [hk, hss, writerCols]
        refine List.mem_append.mpr (Or.inr ?_)
        exact List.mem_flatMap.mpr ⟨sec, hsecS, by simp⟩
      · obtain ⟨sec, hsseq, hsecS⟩ := hsec s hs
        have hss : secStr s = sec := by rw [secStr, hsseq]
        rw [hk, hss, writerCols]
        refine List.mem_append.mpr (Or.inr ?_)
        exact List.mem_flatMap.mpr ⟨sec, hsecS, by simp⟩
    rw [if_pos (List.all_eq_true.mpr (fun kv hkv => decide_eq_true (hall kv hkv)))]

/-! ### The reader range walk over a written row (claim C6) -/

theorem parseRanges_cons_hit {ranges : List String} {i : Nat} {a b : Nat}
    (rest : List String) (nm : String) (flags : List String) (sec : String)
    (h1 : ranges.get? (2 * i) = some (pyHex a))
    (h2 : ranges.get? (2 * i + 1) = some (pyHex b)) :
    parseRanges (sec :: rest) i nm flags ranges =
      (parseRanges rest (i + 1) nm flags ranges).map
        ((⟨a, b, some nm, some sec, flags⟩ : Slice) :: ·) := by
  rw [parseRanges]
  simp only [h1, h2, pyStrip_pyHex, pyIntHex_pyHex]
  rw [if_neg (pyHex_ne_empty a), if_neg (pyHex_ne_empty b)]

theorem parseRanges_cons_skip {ranges : List String} {i : Nat} {v : String}
    (rest : List String) (nm : String) (flags : List String) (sec : String)
    (h1 : ranges.get? (2 * i) = some "")
    (h2 : ranges.get? (2 * i + 1) = some v) :
    parseRanges (sec :: rest) i nm flags ranges =
      parseRanges rest (i + 1) nm flags ranges := by
  rw [parseRanges]
  simp only [h1, h2]
  rw [if_pos]
  rfl

theorem parseRanges_writer {nm : String} {g : List Slice} {flags : List String}
    (htags : ∀ tag ∈ (g.headD ⟨0, 0, none, none, []⟩).tags,
      tag = "enabled" ∨ tag = "strip")
    (hsec : ∀ s ∈ g, ∃ sec, s.«section» = some sec)
    (hinj : ∀ s ∈ g, ∀ s' ∈ g, s.«section» = s'.«section» → s = s') :
    ∀ (Srest Spre : List String), ∃ out,
      parseRanges Srest Spre.length nm flags
        (((Spre ++ Srest).flatMap (fun sec => [sec ++ "Start", sec ++ "End"])).map
          (fun c => (assocGet? (entryOfGroup nm g) c).getD "")) = some out ∧
      ∀ s ∈ g, ∀ sec, s.«section» = some sec → sec ∈ Srest →
        (⟨s.start, s.stop, some nm, some sec, flags⟩ : Slice) ∈ out := by
  intro Srest
  induction Srest with
  | nil =>
    intro Spre
    exact ⟨[], rfl, fun s _ sec _ hmem => absurd hmem (List.not_mem_nil sec)⟩
  | cons sec rest ih =>
    intro Spre
    have hsplit : ((Spre ++ sec :: rest).flatMap
        (fun sec => [sec ++ "Start", sec ++ "End"])) =
        Spre.flatMap (fun sec => [sec ++ "Start", sec ++ "End"]) ++
          ((sec ++ "Start") :: (sec ++ "End") ::
            rest.flatMap (fun sec => [sec ++ "Start", sec ++ "End"])) := by
      rw [List.flatMap_append]
      simp [List.flatMap_cons]
    have hlenA : ((Spre.flatMap (fun sec => [sec ++ "Start", sec ++ "End"])).map
        (fun c => (assocGet? (entryOfGroup nm g) c).getD "")).length =
        2 * Spre.length := by
      rw [List.length_map, length_flatMap_pairs]
    have hget1 : (((Spre ++ sec :: rest).flatMap
        (fun sec => [sec ++ "Start", sec ++ "End"])).map
          (fun c => (assocGet? (entryOfGroup nm g) c).getD "")).get?
        (2 * Spre.length) =
        some ((assocGet? (entryOfGroup nm g) (sec ++ "Start")).getD "") := by
      rw [hsplit, List.map_append, List.get?_append_right (by omega), hlenA]
      simp
    have hget2 : (((Spre ++ sec :: rest).flatMap
        (fun sec => [sec ++ "Start", sec ++ "End"])).map
          (fun c => (assocGet? (entryOfGroup nm g) c).getD "")).get?
        (2 * Spre.length + 1) =
        some ((assocGet? (entryOfGroup nm g) (sec ++ "End")).getD "") := by
      rw [hsplit, List.map_append, List.get?_append_right (by omega), hlenA]
      have : 2 * Spre.length + 1 - 2 * Spre.length = 1 := by omega
      rw [this]
      simp
    have hSpre1 : (Spre ++ [sec]).length = Spre.length + 1 := by simp
    have hreassoc : Spre ++ sec :: rest = (Spre ++ [sec]) ++ rest := by simp
    obtain ⟨out, hout, hmem⟩ := ih (Spre ++ [sec])
    rw [hSpre1, ← hreassoc] at hout
    by_cases hcov : ∃ s ∈ g, s.«section» = some sec
    · obtain ⟨s, hs, hsseq⟩ := hcov
      obtain ⟨hv1, hv2⟩ := entry_get_hit hs hsseq hsec hinj
      rw [hv1] at hget1
      rw [hv2] at hget2
      have hstep := parseRanges_cons_hit rest nm flags sec hget1 hget2
      rw [hstep, hout]
      refine ⟨_, rfl, ?_⟩
      intro s' hs' sec' hsec' hmem'
      rcases List.mem_cons.mp hmem' with rfl | hmem'
      · have hseq : s' = s := hinj s' hs' s hs (by rw [hsec', hsseq])
        subst hseq
        exact List.mem_cons_self _ _
      · exact List.mem_cons_of_mem _ (hmem s' hs' sec' hsec' hmem')
    · have hmiss : ∀ s ∈ g, s.«section» ≠ some sec := by
        intro s hs he
        exact hcov ⟨s, hs, he⟩
      obtain ⟨hv1, hv2⟩ := entry_get_miss htags hsec hmiss
      rw [hv1] at hget1
      rw [hv2] at hget2
      have hstep := parseRanges_cons_skip rest nm flags sec hget1 hget2
      rw [hstep, hout]
      refine ⟨out, rfl, ?_⟩
      intro s' hs' sec' hsec' hmem'
      rcases List.mem_cons.mp hmem' with rfl | hmem'
      · exact absurd hsec' (hmiss s' hs')
      · exact hmem s' hs' sec' hsec' hmem'

theorem parse_row_cons (cfg : ReaderCfg) (a : String) (rest : List String) :
    parse_row cfg (a :: rest) =
      if (a :: rest).length ≠ cfg.cols then none
      else
        match (a :: rest).get? cfg.tags.length with
        | none => none
        | some name =>
          parseRanges cfg.sections 0 name
            (((cfg.tags.zip (a :: rest)).filter (fun p => decide (p.2 = "1"))).map (·.1))
            ((a :: rest).drop (cfg.tags.length + 1)) := rfl

theorem parse_row_writer {S : List String} {nm : String} {g : List Slice}
    (hg : g ≠ [])
    (htags : ∀ tag ∈ (g.headD ⟨0, 0, none, none, []⟩).tags,
      tag = "enabled" ∨ tag = "strip")
    (hsec : ∀ s ∈ g, ∃ sec, s.«section» = some sec)
    (hinj : ∀ s ∈ g, ∀ s' ∈ g, s.«section» = s'.«section» → s = s') :
    ∃ out,
      parse_row ⟨["enabled", "strip"], S, 3 + 2 * S.length⟩
        ((writerCols S).map
          (fun c => (assocGet? (entryOfGroup nm g) c).getD "")) = some out ∧
      ∀ s ∈ g, ∀ sec, s.«section» = some sec → sec ∈ S →
        ∃ s' ∈ out, s'.start = s.start ∧ s'.stop = s.stop ∧
          s'.name = some nm ∧ s'.«section» = some sec ∧
          ∀ tag, tag ∈ s'.tags ↔ tag ∈ (g.headD ⟨0, 0, none, none, []⟩).tags := by
  have hrow : (writerCols S).map
      (fun c => (assocGet? (entryOfGroup nm g) c).getD "") =
      (assocGet? (entryOfGroup nm g) "enabled").getD "" ::
      (assocGet? (entryOfGroup nm g) "strip").getD "" ::
      (assocGet? (entryOfGroup nm g) "name").getD "" ::
      (S.flatMap (fun sec => [sec ++ "Start", sec ++ "End"])).map
        (fun c => (assocGet? (entryOfGroup nm g) c).getD "") := by
    rw [writerCols]
    rfl
  rw [hrow, parse_row_cons]
  have hlen : ¬ ((assocGet? (entryOfGroup nm g) "enabled").getD "" ::
      (assocGet? (entryOfGroup nm g) "strip").getD "" ::
      (assocGet? (entryOfGroup nm g) "name").getD "" ::
      (S.flatMap (fun sec => [sec ++ "Start", sec ++ "End"])).map
        (fun c => (assocGet? (entryOfGroup nm g) c).getD "")).length ≠
      (⟨["enabled", "strip"], S, 3 + 2 * S.length⟩ : ReaderCfg).cols := by
    simp only [List.length_cons, List.length_map, length_flatMap_pairs]
    show ¬ (2 * S.length + 1 + 1 + 1 ≠ 3 + 2 * S.length)
    omega
  rw [if_neg hlen]
  have hname : (assocGet? (entryOfGroup nm g) "name").getD "" = nm := by
    rw [entry_get_name htags]
    rfl
  have hget2 : ((assocGet? (entryOfGroup nm g) "enabled").getD "" ::
      (assocGet? (entryOfGroup nm g) "strip").getD "" ::
      (assocGet? (entryOfGroup nm g) "name").getD "" ::
      (S.flatMap (fun sec => [sec ++ "Start", sec ++ "End"])).map
        (fun c => (assocGet? (entryOfGroup nm g) c).getD "")).get?
      (⟨["enabled", "strip"], S, 3 + 2 * S.length⟩ : ReaderCfg).tags.length =
      some nm := by
    show some ((assocGet? (entryOfGroup nm g) "name").getD "") = some nm
    rw [hname]
  rw [hget2]
  obtain ⟨out, hout, hmem⟩ := parseRanges_writer htags hsec hinj S []
  refine ⟨out, ?_, ?_⟩
  · show parseRanges S 0 nm _ _ = some out
    have hdrop : ((assocGet? (entryOfGroup nm g) "enabled").getD "" ::
        (assocGet? (entryOfGroup nm g) "strip").getD "" ::
        (assocGet? (entryOfGroup nm g) "name").getD "" ::
        (S.flatMap (fun sec => [sec ++ "Start", sec ++ "End"])).map
          (fun c => (assocGet? (entryOfGroup nm g) c).getD "")).drop
        ((⟨["enabled", "strip"], S, 3 + 2 * S.length⟩ : ReaderCfg).tags.length + 1) =
        (S.flatMap (fun sec => [sec ++ "Start", sec ++ "End"])).map
          (fun c => (assocGet? (entryOfGroup nm g) c).getD "") := rfl
    rw [hdrop]
    exact hout
  · intro s hs sec hsseq hsecS
    refine ⟨⟨s.start, s.stop, some nm, some sec,
      (((["enabled", "strip"].zip
        ((assocGet? (entryOfGroup nm g) "enabled").getD "" ::
        (assocGet? (entryOfGroup nm g) "strip").getD "" ::
        (assocGet? (entryOfGroup nm g) "name").getD "" ::
        (S.flatMap (fun sec => [sec ++ "Start", sec ++ "End"])).map
          (fun c => (assocGet? (entryOfGroup nm g) c).getD ""))).filter
          (fun p => decide (p.2 = "1"))).map (·.1))⟩,
      hmem s hs sec hsseq hsecS, rfl, rfl, rfl, rfl, ?_⟩
    intro tag
    have hzip : (["enabled", "strip"].zip
        ((assocGet? (entryOfGroup nm g) "enabled").getD "" ::
        (assocGet? (entryOfGroup nm g) "strip").getD "" ::
        (assocGet? (entryOfGroup nm g) "name").getD "" ::
        (S.flatMap (fun sec => [sec ++ "Start", sec ++ "End"])).map
          (fun c => (assocGet? (entryOfGroup nm g) c).getD ""))) =
        [("enabled", (assocGet? (entryOfGroup nm g) "enabled").getD ""),
         ("strip", (assocGet? (entryOfGroup nm g) "strip").getD "")] := rfl
    rw [hzip]
    have hval : ∀ t : String, t = "enabled" ∨ t = "strip" →
        ((assocGet? (entryOfGroup nm g) t).getD "" = "1" ↔
          t ∈ (g.headD ⟨0, 0, none, none, []⟩).tags) := by
      intro t ht
      rw [entry_get_tag ht]
      by_cases hmem2 : t ∈ (g.headD ⟨0, 0, none, none, []⟩).tags
      · rw [if_pos hmem2]
        exact ⟨fun _ => hmem2, fun _ => rfl⟩
      · rw [if_neg hmem2]
        exact ⟨fun h => absurd h (by decide), fun h => absurd h hmem2⟩
    constructor
    · intro htag
      simp only [List.mem_map, List.mem_filter] at htag
      obtain ⟨p, ⟨hp, hp2⟩, hp3⟩ := htag
      rcases List.mem_cons.mp hp with rfl | hp
      · rw [← hp3]
        exact (hval "enabled" (Or.inl rfl)).mp (by simpa using hp2)
      · have hp' : p = ("strip", (assocGet? (entryOfGroup nm g) "strip").getD "") := by
          simpa using hp
        subst hp'
        rw [← hp3]
        exact (hval "strip" (Or.inr rfl)).mp (by simpa using hp2)
    · intro htag
      have ht2 := htags _ htag
      simp only [List.mem_map, List.mem_filter]
      rcases ht2 with rfl | rfl
      · exact ⟨("enabled", (assocGet? (entryOfGroup nm g) "enabled").getD ""),
          ⟨by simp, by simpa using decide_eq_true ((hval _ (Or.inl rfl)).mpr htag)⟩, rfl⟩
      · exact ⟨("strip", (assocGet? (entryOfGroup nm g) "strip").getD ""),
          ⟨by simp, by simpa using decide_eq_true ((hval _ (Or.inr rfl)).mpr htag)⟩, rfl⟩

/-! ## Claim C1 -/

/-- C1 (amended): for every table whose slices tile its range and every
sequence of `add`/`remove` calls that all succeed, the resulting table's
slices are still sorted by strictly increasing start, contiguous
(`stop` = next `start`), cover exactly `[table_start, table_stop)`, and all
have positive length.  (The no-two-adjacent-gaps clause of the original claim
is dropped: `remove` violates it, see the counterexample.) -/
theorem claim_C1_partition_invariant (t t' : SliceTable) (ops : List Op)
    (hInv : ChainInv t) (h : applyOps t ops = some t') : ChainInv t' :=
  (applyOps_chain hInv h).1

/-- C1 counterexample: a single valid `remove` on a fresh table over
`[0, 100)` produces three consecutive unnamed slices, so the claimed
no-adjacent-gaps invariant is false. -/
theorem claim_C1_counterexample :
    PartitionInv ⟨[⟨0, 100, none, none, []⟩], 0, 100⟩ ∧
    applyOps ⟨[⟨0, 100, none, none, []⟩], 0, 100⟩ [Op.remove 10 20] =
      some ⟨[⟨0, 10, none, none, []⟩, ⟨10, 20, none, none, []⟩,
        ⟨20, 100, none, none, []⟩], 0, 100⟩ ∧
    ¬ NoAdjGaps [⟨0, 10, none, none, []⟩, ⟨10, 20, none, none, []⟩,
      ⟨20, 100, none, none, []⟩] :=
  ⟨by decide, by decide, by decide⟩

/-- Witness for the amended C1 at a concrete table and operation sequence. -/
theorem claim_C1_witness :
    ChainInv ⟨[⟨0, 100, none, none, []⟩], 0, 100⟩ ∧
    applyOps ⟨[⟨0, 100, none, none, []⟩], 0, 100⟩
      [Op.add ⟨10, 20, some "foo", none, []⟩, Op.remove 12 18] =
      some ⟨[⟨0, 10, none, none, []⟩, ⟨10, 12, some "foo", none, []⟩,
        ⟨12, 18, none, none, []⟩, ⟨18, 20, some "foo", none, []⟩,
        ⟨20, 100, none, none, []⟩], 0, 100⟩ ∧
    ChainInv ⟨[⟨0, 10, none, none, []⟩, ⟨10, 12, some "foo", none, []⟩,
      ⟨12, 18, none, none, []⟩, ⟨18, 20, some "foo", none, []⟩,
      ⟨20, 100, none, none, []⟩], 0, 100⟩ :=
  ⟨by decide, by decide,
    claim_C1_partition_invariant ⟨[⟨0, 100, none, none, []⟩], 0, 100⟩
      ⟨[⟨0, 10, none, none, []⟩, ⟨10, 12, some "foo", none, []⟩,
        ⟨12, 18, none, none, []⟩, ⟨18, 20, some "foo", none, []⟩,
        ⟨20, 100, none, none, []⟩], 0, 100⟩
      [Op.add ⟨10, 20, some "foo", none, []⟩, Op.remove 12 18]
      (by decide) (by decide)⟩

/-! ## Claim C3 -/

/-- C3: on a table satisfying the partition invariants, after a successful
`add` of a named slice `r`, calling `remove(r.start, r.stop)` succeeds and
yields a table whose slice list matches the pre-insertion list pointwise on
`start`, `stop` and `name`: the gap `r` occupied is restored, re-merged with
the leftover gaps the insertion had split off. -/
theorem claim_C3_insert_remove_inverse (t t1 : SliceTable) (r : Slice)
    (hInv : PartitionInv t) (hname : r.name.isSome)
    (hadd : t.add r = some t1) :
    ∃ t2, t1.remove r.start r.stop = some t2 ∧ t2.start = t.start ∧ t2.stop = t.stop ∧
      sliceListEqv t2.slices t.slices := by
  obtain ⟨hpos, hin1, hin2⟩ := add_guards hadd
  obtain ⟨P, tgt, Rrest, hl, hts, hsx, hcP, hcR, hPle, hRgt⟩ :=
    add_decomp hInv.1 hin1 (lt_of_lt_of_le hpos hin2)
  rw [add_eq hl hPle hts hRgt hpos ⟨hin1, hin2⟩] at hadd
  by_cases hok : tgt.name = none ∧ r.stop ≤ tgt.stop
  case neg => rw [if_neg hok] at hadd; cases hadd
  rw [if_pos hok] at hadd
  obtain rfl := Option.some.inj hadd
  -- left-neighbor and right-neighbor of the original gap are named (or absent)
  have hlastNamed : ∀ p, P.getLast? = some p → p.name.isSome := by
    intro p hp
    obtain ⟨P0, rfl⟩ := getLast?_decomp hp
    have hlist : NoAdjGaps (P0 ++ p :: tgt :: Rrest) := by
      have h0 := hInv.2
      rw [hl] at h0
      simpa using h0
    have h2 := noAdjGaps_at hlist
    rcases hx : p.name with _ | v
    · exact absurd ⟨hx, hok.1⟩ h2
    · rfl
  have hheadNamed : ∀ rh, Rrest.head? = some rh → rh.name.isSome := by
    intro rh hrh
    cases Rrest with
    | nil => cases hrh
    | cons r2 RR =>
      have hr2 : r2 = rh := by simpa using hrh
      subst hr2
      have hlist : NoAdjGaps (P ++ tgt :: r2 :: RR) := by
        have h0 := hInv.2
        rw [hl] at h0
        exact h0
      have h2 := noAdjGaps_at hlist
      rcases hx : r2.name with _ | v
      · exact absurd ⟨hok.1, hx⟩ h2
      · rfl
  generalize hLG : (if tgt.start < r.start
    then [(⟨tgt.start, r.start, none, none, []⟩ : Slice)] else []) = LG
  generalize hRG : (if r.stop < tgt.stop
    then [(⟨r.stop, tgt.stop, none, none, []⟩ : Slice)] else []) = RG
  -- the merge pipeline restores a single gap spanning the original target
  have hML : ∃ g1sec g1tags,
      mergeLeft ((P ++ LG) ++ ({ r with name := none } : Slice) :: (RG ++ Rrest))
        (P ++ LG).length =
      some (P ++ (⟨tgt.start, r.stop, none, g1sec, g1tags⟩ : Slice) :: (RG ++ Rrest),
        P.length) := by
    by_cases hlg : tgt.start < r.start
    · rw [if_pos hlg] at hLG
      subst hLG
      refine ⟨none, [], ?_⟩
      exact mergeLeft_eq_merge P ⟨tgt.start, r.start, none, none, []⟩
        { r with name := none } _ rfl rfl
    · rw [if_neg hlg] at hLG
      subst hLG
      refine ⟨r.«section», r.tags, ?_⟩
      have hre : r.start = tgt.start := by omega
      simp only [List.append_nil]
      have hkeep := mergeLeft_eq_keep P { r with name := none } (RG ++ Rrest) rfl hlastNamed
      rw [hkeep]
      rw [show ({ r with name := none } : Slice) =
        (⟨tgt.start, r.stop, none, r.«section», r.tags⟩ : Slice) from by rw [← hre]]
  obtain ⟨g1sec, g1tags, hML⟩ := hML
  have hMR : ∃ g2sec g2tags,
      mergeRight (P ++ (⟨tgt.start, r.stop, none, g1sec, g1tags⟩ : Slice) :: (RG ++ Rrest))
        P.length =
      some (P ++ (⟨tgt.start, tgt.stop, none, g2sec, g2tags⟩ : Slice) :: Rrest, P.length) := by
    by_cases hrg : r.stop < tgt.stop
    · rw [if_pos hrg] at hRG
      subst hRG
      refine ⟨none, [], ?_⟩
      simp only [List.singleton_append]
      exact mergeRight_eq_merge P ⟨tgt.start, r.stop, none, g1sec, g1tags⟩
        ⟨r.stop, tgt.stop, none, none, []⟩ Rrest rfl rfl
    · rw [if_neg hrg] at hRG
      subst hRG
      refine ⟨g1sec, g1tags, ?_⟩
      have hre : r.stop = tgt.stop := by omega
      simp only [List.nil_append]
      rw [show (⟨tgt.start, r.stop, none, g1sec, g1tags⟩ : Slice) =
        (⟨tgt.start, tgt.stop, none, g1sec, g1tags⟩ : Slice) from by rw [hre]]
      exact mergeRight_eq_keep P ⟨tgt.start, tgt.stop, none, g1sec, g1tags⟩ Rrest rfl hheadNamed
  obtain ⟨g2sec, g2tags, hMR⟩ := hMR
  have hsl : ({ t with slices := ((P ++ LG) ++ r :: RG) ++ Rrest } : SliceTable).slices
      = (P ++ LG) ++ r :: (RG ++ Rrest) := by
    simp only [List.append_assoc, List.cons_append]
  have hQmem : ∀ p ∈ P ++ LG, ¬(p.start ≤ r.start ∧ r.start < p.stop) := by
    intro p hp
    rcases List.mem_append.mp hp with hp | hp
    · obtain ⟨_, g2, g3⟩ := chain_mem hcP hp
      omega
    · by_cases hlg : tgt.start < r.start
      · rw [if_pos hlg] at hLG
        subst hLG
        have hpe : p = ⟨tgt.start, r.start, none, none, []⟩ := by simpa using hp
        subst hpe
        simp only []
        omega
      · rw [if_neg hlg] at hLG
        subst hLG
        cases hp
  have hmg : (mergeLeft ((P ++ LG) ++ ({ r with name := none } : Slice) :: (RG ++ Rrest))
        (P ++ LG).length).bind (fun li => mergeRight li.1 li.2)
      = some (P ++ (⟨tgt.start, tgt.stop, none, g2sec, g2tags⟩ : Slice) :: Rrest,
        P.length) := by
    rw [hML]
    exact hMR
  have hend : ∀ x ∈ (P ++ (⟨tgt.start, tgt.stop, none, g2sec, g2tags⟩ : Slice)
        :: Rrest).get? (P.length + 1), r.stop ≤ x.start := by
    intro x hx
    rw [get?_append_length_succ] at hx
    cases Rrest with
    | nil => cases hx
    | cons r2 RR =>
      have hr2 : r2 = x := by simpa using hx
      subst hr2
      have hr2s : r2.start = tgt.stop := hcR.1
      omega
  have hrem := remove_single_exact hsl hQmem hpos hin1 hin2 hmg hend
  refine ⟨_, hrem, rfl, rfl, ?_⟩
  simp only [hl]
  refine sliceListEqv_append (sliceListEqv_refl P) ?_
  exact ⟨rfl, rfl, hok.1.symm, sliceListEqv_refl Rrest⟩

/-- Witness for C3: a concrete table, one named insertion, and the removal
restoring the original single gap. -/
theorem claim_C3_witness :
    PartitionInv ⟨[⟨0, 100, none, none, []⟩], 0, 100⟩ ∧
    (⟨10, 20, some "foo", none, []⟩ : Slice).name.isSome = true ∧
    SliceTable.add ⟨[⟨0, 100, none, none, []⟩], 0, 100⟩ ⟨10, 20, some "foo", none, []⟩ =
      some ⟨[⟨0, 10, none, none, []⟩, ⟨10, 20, some "foo", none, []⟩,
        ⟨20, 100, none, none, []⟩], 0, 100⟩ ∧
    ∃ t2, SliceTable.remove ⟨[⟨0, 10, none, none, []⟩, ⟨10, 20, some "foo", none, []⟩,
        ⟨20, 100, none, none, []⟩], 0, 100⟩ 10 20 = some t2 ∧
      t2.start = 0 ∧ t2.stop = 100 ∧ t2.slices.length = 1 :=
  ⟨by decide, by decide, by decide, by
    obtain ⟨t2, h1, h2, h3, h4⟩ := claim_C3_insert_remove_inverse
      ⟨[⟨0, 100, none, none, []⟩], 0, 100⟩
      ⟨[⟨0, 10, none, none, []⟩, ⟨10, 20, some "foo", none, []⟩,
        ⟨20, 100, none, none, []⟩], 0, 100⟩
      ⟨10, 20, some "foo", none, []⟩ (by decide) (by decide) (by decide)
    refine ⟨t2, h1, h2, h3, ?_⟩
    cases ht : t2.slices with
    | nil => rw [ht] at h4; cases h4
    | cons a l =>
      cases l with
      | nil => rfl
      | cons b l' => rw [ht] at h4; cases h4.2.2.2⟩

/-! ## Claim C5 -/

/-- C5: the spec's required adversarial case.  A table holding exactly the
four named regions of objects `A` and `B` in sections `text` and `data`,
with `A.text` before `B.text` but `A.data` after `B.data`, makes
`object_slices` fail (no bucket front is simultaneously ready), instead of
returning a grouping. -/
theorem claim_C5_reconciliation_unsatisfiable :
    PartitionInv ⟨[⟨0x100, 0x200, some "A", some "text", []⟩,
      ⟨0x200, 0x300, some "B", some "text", []⟩,
      ⟨0x300, 0x400, some "B", some "data", []⟩,
      ⟨0x400, 0x500, some "A", some "data", []⟩], 0x100, 0x500⟩ ∧
    SliceTable.object_slices ⟨[⟨0x100, 0x200, some "A", some "text", []⟩,
      ⟨0x200, 0x300, some "B", some "text", []⟩,
      ⟨0x300, 0x400, some "B", some "data", []⟩,
      ⟨0x400, 0x500, some "A", some "data", []⟩], 0x100, 0x500⟩ SECTION_ORDER = none := by
  refine ⟨by decide, ?_⟩
  decide

/-! ## Claim C8 -/

/-- C8 (code bug): `find_parent` is documented to return a slice containing
the given slice, but `bisect_left` returns the first slice whose `start` is
not below the probe's.  On the table `[a@[0,10), gap@[10,100))` and probe
`[5,8)` it returns the gap `[10,100)`, which does not contain the probe,
even though the containing slice `a@[0,10)` exists. -/
theorem claim_C8_find_parent_not_containing :
    PartitionInv ⟨[⟨0, 10, some "a", none, []⟩, ⟨10, 100, none, none, []⟩], 0, 100⟩ ∧
    SliceTable.find_parent ⟨[⟨0, 10, some "a", none, []⟩, ⟨10, 100, none, none, []⟩], 0, 100⟩
      ⟨5, 8, none, none, []⟩ = some ⟨10, 100, none, none, []⟩ ∧
    Slice.containsSlice ⟨10, 100, none, none, []⟩ ⟨5, 8, none, none, []⟩ = false ∧
    Slice.containsSlice ⟨0, 10, some "a", none, []⟩ ⟨5, 8, none, none, []⟩ = true := by
  decide

/-! ## Claim C9 -/

/-- C9: `sum_named_slices` reads `self.segs`, an attribute no `SliceTable`
possesses, so it raises `AttributeError` on every table and never returns
the sum of the named slices' lengths held in `slices`. -/
theorem claim_C9_sum_named_slices_fails (t : SliceTable) :
    t.sum_named_slices = none := rfl

/-! ## Claim C2 -/

/-- C2: on a table satisfying the partition invariants, for a positive-length
slice `r` within bounds, with `tgt` the existing slice containing `r.start`:
`add r` fails exactly when `tgt` is named or does not fully enclose `r`, and
otherwise replaces `tgt` in place by the left leftover gap (exactly when
`r.start > tgt.start`), then `r`, then the right leftover gap (exactly when
`r.stop < tgt.stop`), leaving every other slice unchanged. -/
theorem claim_C2_add_spec (t : SliceTable) (r tgt : Slice) (i : Nat)
    (hInv : PartitionInv t) (hpos : r.start < r.stop)
    (hin : t.start ≤ r.start ∧ r.stop ≤ t.stop)
    (hfind : t.find r.start = some (tgt, i)) :
    ((tgt.has_name = true ∨ tgt.containsSlice r = false) → t.add r = none) ∧
    (tgt.has_name = false → tgt.containsSlice r = true →
      t.add r = some { t with slices :=
        (t.slices.take i ++
          (if tgt.start < r.start then [⟨tgt.start, r.start, none, none, []⟩] else []) ++
          r :: (if r.stop < tgt.stop then [⟨r.stop, tgt.stop, none, none, []⟩] else []) ++
          t.slices.drop (i + 1)) }) := by
  obtain ⟨P, R, hl, hi, hts, hsx, hPnc⟩ := findAux_some hfind
  have hi' : i = P.length := by omega
  subst hi'
  have hch := hInv.1
  rw [hl] at hch
  obtain ⟨m, hcP, hcR0⟩ := chain_append_inv hch
  have hm : tgt.start = m := hcR0.1
  have hPle : ∀ p ∈ P, p.start ≤ r.start := by
    intro p hp
    obtain ⟨_, g2, g3⟩ := chain_mem hcP hp
    omega
  have hRgt : ∀ r0 ∈ R.head?, r.start < r0.start := by
    intro r0 hr0
    cases R with
    | nil => cases hr0
    | cons x R' =>
      have hx : x = r0 := by simpa using hr0
      subst hx
      have : x.start = tgt.stop := hcR0.2.2.1
      omega
  have heq := add_eq hl hPle hts hRgt hpos hin
  have htake : t.slices.take P.length = P := by rw [hl]; exact take_append_length P R tgt
  have hdrop : t.slices.drop (P.length + 1) = R := by rw [hl]; exact drop_append_length P R tgt
  constructor
  · intro hbad
    rw [heq, if_neg]
    intro hok
    rcases hbad with hbad | hbad
    · rw [Slice.has_name, hok.1] at hbad
      cases hbad
    · rw [Slice.containsSlice] at hbad
      have : tgt.start ≤ r.start ∧ r.stop ≤ tgt.stop := ⟨hts, hok.2⟩
      simp [this] at hbad
  · intro hname hcont
    have h1 : tgt.name = none := by
      rw [Slice.has_name] at hname
      exact Option.not_isSome_iff_eq_none.mp (by simp [hname])
    have h2 : r.stop ≤ tgt.stop := by
      rw [Slice.containsSlice] at hcont
      exact (of_decide_eq_true hcont).2
    rw [heq, if_pos ⟨h1, h2⟩, htake, hdrop]

/-- Witness for C2: a concrete table, a successful insertion and a rejected
overlapping insertion. -/
theorem claim_C2_witness :
    (PartitionInv ⟨[⟨0, 10, some "a", none, []⟩, ⟨10, 100, none, none, []⟩], 0, 100⟩ ∧
      SliceTable.add ⟨[⟨0, 10, some "a", none, []⟩, ⟨10, 100, none, none, []⟩], 0, 100⟩
        ⟨20, 30, some "b", none, []⟩ =
        some ⟨[⟨0, 10, some "a", none, []⟩, ⟨10, 20, none, none, []⟩,
          ⟨20, 30, some "b", none, []⟩, ⟨30, 100, none, none, []⟩], 0, 100⟩) ∧
    SliceTable.add ⟨[⟨0, 10, some "a", none, []⟩, ⟨10, 100, none, none, []⟩], 0, 100⟩
      ⟨5, 30, some "c", none, []⟩ = none := by
  refine ⟨⟨by decide, ?_⟩, ?_⟩
  · have h := (claim_C2_add_spec
      ⟨[⟨0, 10, some "a", none, []⟩, ⟨10, 100, none, none, []⟩], 0, 100⟩
      ⟨20, 30, some "b", none, []⟩ ⟨10, 100, none, none, []⟩ 1
      (by decide) (by decide) (by decide) (by decide)).2 (by decide) (by decide)
    rw [h]
    decide
  · exact (claim_C2_add_spec
      ⟨[⟨0, 10, some "a", none, []⟩, ⟨10, 100, none, none, []⟩], 0, 100⟩
      ⟨5, 30, some "c", none, []⟩ ⟨0, 10, some "a", none, []⟩ 0
      (by decide) (by decide) (by decide) (by decide)).1 (by decide)


/-! ## Claim C4 -/

/-- **C4**: removing the same range twice does not yield the same Region
list as removing it once (see `claim_C4_counterexample`: carving strictly
inside a gap fragments it, and the second pass merges the fragments back).
Amended statement, proved here: on a chain-invariant table, a second
successful `remove` of the same range changes nothing about the named
slices — after the first removal the two tables can differ only in how
their unnamed gaps are fragmented. -/
theorem claim_C4_remove_idempotent_named (t t1 t2 : SliceTable) (a b : Nat)
    (hInv : ChainInv t) (h1 : t.remove a b = some t1)
    (h2 : t1.remove a b = some t2) :
    namedSlices t2.slices = namedSlices t1.slices := by
  obtain ⟨hInv1, hst, hsp⟩ := remove_chain hInv h1
  refine remove_preserve_named hInv1 ?_ h2
  intro s hs hsb hsa
  rw [hsp] at hsb
  rw [hst] at hsa
  exact remove_names hInv h1 s hs hsb hsa

/-- Counterexample to the literal C4: on a fresh one-gap table `[0, 100)`,
`remove(10, 20)` once leaves three adjacent gaps, while removing the same
range a second time merges them back into a single gap — the two Region
lists differ. -/
theorem claim_C4_counterexample :
    SliceTable.remove ⟨[⟨0, 100, none, none, []⟩], 0, 100⟩ 10 20 =
      some ⟨[⟨0, 10, none, none, []⟩, ⟨10, 20, none, none, []⟩,
        ⟨20, 100, none, none, []⟩], 0, 100⟩ ∧
    SliceTable.remove ⟨[⟨0, 10, none, none, []⟩, ⟨10, 20, none, none, []⟩,
        ⟨20, 100, none, none, []⟩], 0, 100⟩ 10 20 =
      some ⟨[⟨0, 100, none, none, []⟩], 0, 100⟩ ∧
    ([⟨0, 10, none, none, []⟩, ⟨10, 20, none, none, []⟩,
        ⟨20, 100, none, none, []⟩] : List Slice) ≠ [⟨0, 100, none, none, []⟩] :=
  ⟨by decide, by decide, by decide⟩

/-- Witness for the amended C4 at a concrete table and range. -/
theorem claim_C4_witness :
    ChainInv ⟨[⟨0, 100, none, none, []⟩], 0, 100⟩ ∧
    namedSlices (⟨[⟨0, 100, none, none, []⟩], 0, 100⟩ : SliceTable).slices =
      namedSlices (⟨[⟨0, 10, none, none, []⟩, ⟨10, 20, none, none, []⟩,
        ⟨20, 100, none, none, []⟩], 0, 100⟩ : SliceTable).slices :=
  ⟨by decide, claim_C4_remove_idempotent_named
    ⟨[⟨0, 100, none, none, []⟩], 0, 100⟩
    ⟨[⟨0, 10, none, none, []⟩, ⟨10, 20, none, none, []⟩,
      ⟨20, 100, none, none, []⟩], 0, 100⟩
    ⟨[⟨0, 100, none, none, []⟩], 0, 100⟩ 10 20
    (by decide) (by decide) (by decide)⟩

/-! ## Claim C10 -/

/-- **C10**: every slice of a successful `remove`'s result inherits its
section label and tag set from a slice of the original table; a slice that
kept a name keeps that origin's name and lies inside the origin's interval,
while the gaps the removal creates differ from their origin only by the
cleared name (and trimmed bounds). -/
theorem claim_C10_remove_metadata (t t' : SliceTable) (a b : Nat)
    (h : t.remove a b = some t') :
    ∀ s ∈ t'.slices, ProvFrom t.slices s := by
  rw [SliceTable.remove] at h
  cases hf : t.find (max a t.start) with
  | none => rw [hf] at h; cases h
  | some si =>
    obtain ⟨s0, idx⟩ := si
    simp only [hf] at h
    cases hl : removeLoop t.slices idx (max a t.start) (min b t.stop)
        (t.slices.length + min b t.stop + 1) with
    | none => rw [hl] at h; cases h
    | some l =>
      simp only [hl] at h
      obtain rfl := Option.some.inj h
      exact removeLoop_prov _ hl

/-- Witness for C10: carving `[10, 20)` out of a named slice keeps the
origin's section and tags on the remainder pieces and on the new gap. -/
theorem claim_C10_witness :
    SliceTable.remove ⟨[⟨0, 50, some "a", some "text", ["x"]⟩,
        ⟨50, 100, none, none, []⟩], 0, 100⟩ 10 20 =
      some ⟨[⟨0, 10, some "a", some "text", ["x"]⟩,
        ⟨10, 20, none, some "text", ["x"]⟩,
        ⟨20, 50, some "a", some "text", ["x"]⟩,
        ⟨50, 100, none, none, []⟩], 0, 100⟩ ∧
    ∀ s ∈ (⟨[⟨0, 10, some "a", some "text", ["x"]⟩,
        ⟨10, 20, none, some "text", ["x"]⟩,
        ⟨20, 50, some "a", some "text", ["x"]⟩,
        ⟨50, 100, none, none, []⟩], 0, 100⟩ : SliceTable).slices,
      ProvFrom (⟨[⟨0, 50, some "a", some "text", ["x"]⟩,
        ⟨50, 100, none, none, []⟩], 0, 100⟩ : SliceTable).slices s :=
  ⟨by decide, claim_C10_remove_metadata
    ⟨[⟨0, 50, some "a", some "text", ["x"]⟩, ⟨50, 100, none, none, []⟩], 0, 100⟩
    ⟨[⟨0, 10, some "a", some "text", ["x"]⟩, ⟨10, 20, none, some "text", ["x"]⟩,
      ⟨20, 50, some "a", some "text", ["x"]⟩, ⟨50, 100, none, none, []⟩], 0, 100⟩
    10 20 (by decide)⟩


/-! ## Claim C7 -/

/-- **C7**: `slice(start, stop)` fails when `start` lies in no existing
slice, and on success returns a table covering exactly `[start, stop)`; but
a boundary Region cut by the extraction KEEPS its name (and section and
tags) — the claim's "name dropped" clause is false, see
`claim_C7_counterexample`.  Amended statement, proved here: every Region of
the result is either a synthesised unnamed gap or the intersection of an
original Region with `[start, stop)` carrying the original's name, section
and tags unchanged. -/
theorem claim_C7_slice_spec (t : SliceTable) (start stop : Nat) :
    (t.find start = none → t.slice start stop = none) ∧
    ∀ t', t.slice start stop = some t' →
      t'.start = start ∧ t'.stop = stop ∧ Chain start t'.slices stop ∧
      ∀ x ∈ t'.slices, x.name = none ∨
        ∃ o ∈ t.slices, o.name = x.name ∧ o.«section» = x.«section» ∧
          o.tags = x.tags ∧ x.start = max o.start start ∧ x.stop = min o.stop stop := by
  constructor
  · intro hf
    rw [SliceTable.slice, hf]
  · intro t' h
    rw [SliceTable.slice] at h
    cases hf : t.find start with
    | none => rw [hf] at h; cases h
    | some si =>
      obtain ⟨s0, idx⟩ := si
      simp only [hf] at h
      cases hinit : SliceTable.init start stop with
      | none => rw [hinit] at h; cases h
      | some nt =>
        simp only [hinit] at h
        rw [SliceTable.init] at hinit
        by_cases hlt : start < stop
        · rw [if_pos hlt] at hinit
          obtain rfl := Option.some.inj hinit
          have hch : ChainInv (⟨[⟨start, stop, none, none, []⟩], start, stop⟩ :
              SliceTable) := ⟨rfl, hlt, rfl⟩
          obtain ⟨hc, hst, hsp⟩ := sliceLoop_chain _ hch h
          have hc' : Chain t'.start t'.slices t'.stop := hc
          rw [hst, hsp] at hc'
          refine ⟨hst, hsp, hc', ?_⟩
          intro x hx
          rcases sliceLoop_prov _ h x hx with hx2 | hn | ⟨o, ho, k1, k2, k3, k4, k5⟩
          · left
            have hxe : x = ⟨start, stop, none, none, []⟩ := by simpa using hx2
            rw [hxe]
          · exact Or.inl hn
          · exact Or.inr ⟨o, List.mem_of_mem_drop ho, k1, k2, k3, k4, k5⟩
        · rw [if_neg hlt] at hinit
          cases hinit

/-- Counterexample to the literal C7: slicing `[20, 60)` out of a table
holding `foo` on `[10, 50)` yields a boundary Region `[20, 50)` that still
carries the name `foo`, even though the cut at `20` split the named Region. -/
theorem claim_C7_counterexample :
    SliceTable.slice ⟨[⟨0, 10, none, none, []⟩, ⟨10, 50, some "foo", none, []⟩,
        ⟨50, 100, none, none, []⟩], 0, 100⟩ 20 60 =
      some ⟨[⟨20, 50, some "foo", none, []⟩, ⟨50, 60, none, none, []⟩], 20, 60⟩ ∧
    (⟨20, 50, some "foo", none, []⟩ : Slice).name ≠ none :=
  ⟨by decide, by decide⟩

/-- Witness for the amended C7 at a concrete table and window. -/
theorem claim_C7_witness :
    (⟨[⟨20, 50, some "foo", none, []⟩, ⟨50, 60, none, none, []⟩], 20, 60⟩ :
        SliceTable).start = 20 ∧
    (⟨[⟨20, 50, some "foo", none, []⟩, ⟨50, 60, none, none, []⟩], 20, 60⟩ :
        SliceTable).stop = 60 ∧
    Chain 20 (⟨[⟨20, 50, some "foo", none, []⟩, ⟨50, 60, none, none, []⟩], 20, 60⟩ :
        SliceTable).slices 60 ∧
    ∀ x ∈ (⟨[⟨20, 50, some "foo", none, []⟩, ⟨50, 60, none, none, []⟩], 20, 60⟩ :
        SliceTable).slices, x.name = none ∨
      ∃ o ∈ (⟨[⟨0, 10, none, none, []⟩, ⟨10, 50, some "foo", none, []⟩,
          ⟨50, 100, none, none, []⟩], 0, 100⟩ : SliceTable).slices,
        o.name = x.name ∧ o.«section» = x.«section» ∧ o.tags = x.tags ∧
          x.start = max o.start 20 ∧ x.stop = min o.stop 60 :=
  (claim_C7_slice_spec ⟨[⟨0, 10, none, none, []⟩, ⟨10, 50, some "foo", none, []⟩,
      ⟨50, 100, none, none, []⟩], 0, 100⟩ 20 60).2
    ⟨[⟨20, 50, some "foo", none, []⟩, ⟨50, 60, none, none, []⟩], 20, 60⟩
    (by decide)


/-! ## Claim C6 -/

/-- **C6**: writing an object grouping to the tabular format and re-reading
it restores each written Region's start, stop, name and section, but NOT its
tag set: the writer emits only the FIRST slice's tags for the whole row, so
every re-read Region of the group carries the first slice's tags (see
`claim_C6_counterexample`).  Amended statement, proved here for groupings
whose tags lie in the header's tag columns, whose slices carry distinct
sections drawn from the writer's section list: the round trip restores
start, stop, name and section exactly, and gives every re-read Region the
tag set of the group's first slice. -/
theorem claim_C6_csv_round_trip (S : List String) (nm : String) (g : List Slice)
    (hS : S ≠ []) (hg : g ≠ [])
    (htags : ∀ tag ∈ (g.headD ⟨0, 0, none, none, []⟩).tags,
      tag = "enabled" ∨ tag = "strip")
    (hsec : ∀ s ∈ g, ∃ sec, s.«section» = some sec ∧ sec ∈ S)
    (hinj : ∀ s ∈ g, ∀ s' ∈ g, s.«section» = s'.«section» → s = s') :
    ∃ row out,
      writeRow S nm g = some row ∧
      readerInit (writerCols S) = some ⟨["enabled", "strip"], S, 3 + 2 * S.length⟩ ∧
      parse_row ⟨["enabled", "strip"], S, 3 + 2 * S.length⟩ row = some out ∧
      ∀ s ∈ g, ∃ s' ∈ out, s'.start = s.start ∧ s'.stop = s.stop ∧
        s'.name = some nm ∧ s'.«section» = s.«section» ∧
        ∀ tag, tag ∈ s'.tags ↔ tag ∈ (g.headD ⟨0, 0, none, none, []⟩).tags := by
  have hsec' : ∀ s ∈ g, ∃ sec, s.«section» = some sec := fun s hs =>
    (hsec s hs).imp (fun sec h => h.1)
  obtain ⟨out, hpr, hmem⟩ := parse_row_writer hg htags hsec' hinj
  refine ⟨_, out, writeRow_eq hg htags hsec, readerInit_writerCols hS, hpr, ?_⟩
  intro s hs
  obtain ⟨sec, hsseq, hsecS⟩ := hsec s hs
  obtain ⟨s', hs', h1, h2, h3, h4, h5⟩ := hmem s hs sec hsseq hsecS
  exact ⟨s', hs', h1, h2, h3, by rw [h4, hsseq], h5⟩

/-- Counterexample to the literal C6: a two-slice grouping whose second slice
has no tags comes back from the round trip with the first slice's tag
`enabled` attached to both Regions — no re-read Region matches the second
written Region's (empty) tag set. -/
theorem claim_C6_counterexample :
    writeRow ["text", "data"] "obj"
      [⟨0, 4, some "obj", some "text", ["enabled"]⟩,
       ⟨4, 8, some "obj", some "data", []⟩] =
      some ["1", "", "obj", "0x0", "0x4", "0x4", "0x8"] ∧
    readerInit (writerCols ["text", "data"]) =
      some ⟨["enabled", "strip"], ["text", "data"], 7⟩ ∧
    parse_row ⟨["enabled", "strip"], ["text", "data"], 7⟩
      ["1", "", "obj", "0x0", "0x4", "0x4", "0x8"] =
      some [⟨0, 4, some "obj", some "text", ["enabled"]⟩,
        ⟨4, 8, some "obj", some "data", ["enabled"]⟩] ∧
    ¬ ∃ s' ∈ [(⟨0, 4, some "obj", some "text", ["enabled"]⟩ : Slice),
        ⟨4, 8, some "obj", some "data", ["enabled"]⟩],
      s'.start = 4 ∧ s'.stop = 8 ∧ s'.tags = ([] : List String) :=
  ⟨by decide, by decide, by decide, by decide⟩

/-- Witness for the amended C6 at a concrete grouping. -/
theorem claim_C6_witness :
    ∃ row out,
      writeRow ["text", "data"] "obj"
        [⟨0, 4, some "obj", some "text", ["enabled"]⟩,
         ⟨4, 8, some "obj", some "data", []⟩] = some row ∧
      readerInit (writerCols ["text", "data"]) =
        some ⟨["enabled", "strip"], ["text", "data"], 3 + 2 * (["text", "data"] : List String).length⟩ ∧
      parse_row ⟨["enabled", "strip"], ["text", "data"],
        3 + 2 * (["text", "data"] : List String).length⟩ row = some out ∧
      ∀ s ∈ [(⟨0, 4, some "obj", some "text", ["enabled"]⟩ : Slice),
          ⟨4, 8, some "obj", some "data", []⟩],
        ∃ s' ∈ out, s'.start = s.start ∧ s'.stop = s.stop ∧
          s'.name = some "obj" ∧ s'.«section» = s.«section» ∧
          ∀ tag, tag ∈ s'.tags ↔
            tag ∈ (([(⟨0, 4, some "obj", some "text", ["enabled"]⟩ : Slice),
              ⟨4, 8, some "obj", some "data", []⟩].headD ⟨0, 0, none, none, []⟩)).tags :=
  claim_C6_csv_round_trip ["text", "data"] "obj"
    [⟨0, 4, some "obj", some "text", ["enabled"]⟩,
     ⟨4, 8, some "obj", some "data", []⟩]
    (by decide) (by decide) (by decide)
    (by
      intro s hs
      rcases List.mem_cons.mp hs with rfl | hs
      · exact ⟨"text", rfl, by decide⟩
      rcases List.mem_cons.mp hs with rfl | hs
      · exact ⟨"data", rfl, by decide⟩
      · cases hs)
    (by decide)

end MKW
